import Mathlib

/-!
# ChessEngine bit primitives

A shallow embedding of `ChessEngine/include/Utils.hpp` and of the parts of
`ChessEngine/include/CustomTypes.hpp` it relies on.

Conventions of the embedding:

* `uint64_t` values are natural numbers below `2 ^ 64`; every operation that can
  leave that range in C++ is followed by an explicit `% 2 ^ 64`.
* `int` values are integers (`Int`).  C++ `/` and `%` on `int` truncate towards
  zero, so they are `Int.tdiv` and `Int.tmod`; `&` and `>>` on `int` are the
  two's-complement `Int.land` and the arithmetic `Int.shiftRight`.
* The compiler builtins `__builtin_popcountll` and `__builtin_ctzll` are not part
  of the repository; they are modelled from their documented meaning.
-/

namespace ChessEngine

/-! ## CustomTypes.hpp -/

/-- The `Direction` enumerators: the signed square-index delta of one step. -/
def NORTH : Int := 8
/-- One step down a file. -/
def SOUTH : Int := -8
/-- One step right along a rank. -/
def EAST : Int := 1
/-- One step left along a rank. -/
def WEST : Int := -1
/-- One step along the a1-h8 diagonal direction. -/
def NORTH_EAST : Int := 9
/-- One step along the h1-a8 diagonal direction. -/
def NORTH_WEST : Int := 7
/-- One step back along the h1-a8 diagonal direction. -/
def SOUTH_EAST : Int := -7
/-- One step back along the a1-h8 diagonal direction. -/
def SOUTH_WEST : Int := -9
/-- The enumerator for "no direction". -/
def NONE : Int := 0

/-- The `TTFlag` enumerator for an unused or invalid entry. -/
def FLAG_NONE : Nat := 0
/-- The `TTFlag` enumerator for an exact score. -/
def FLAG_EXACT : Nat := 1
/-- The `TTFlag` enumerator for a lower bound. -/
def FLAG_LOWERBOUND : Nat := 2
/-- The `TTFlag` enumerator for an upper bound. -/
def FLAG_UPPERBOUND : Nat := 3

/-- The struct `TTEntry`: a 64-bit key, a 32-bit move, a 16-bit signed score, an
8-bit signed depth and a `TTFlag`. -/
structure TTEntry where
  /-- The full Zobrist key, kept for verification. -/
  zobrist_key_verify : Nat
  /-- The best move found for the position. -/
  best_move : Nat
  /-- The evaluation score. -/
  score : Int
  /-- The depth searched. -/
  depth : Int
  /-- The bound type of the score. -/
  flag : Nat

/-- A default-constructed `TTEntry`, built from the default member initialisers of
the struct.  The constant `NULL_MOVE_32` is declared outside the two source files
and is taken as a parameter. -/
def TTEntry.defaultEntry (NULL_MOVE_32 : Nat) : TTEntry :=
  TTEntry.mk 0 NULL_MOVE_32 0 (-1) FLAG_NONE

/-- Modelled from the spec: the transposition table and its `probe` operation are
not among the source files.  The spec says that `probe(key)` "returns the slot's
contents only if `zobrist_key_verify == key` and `depth ≥ 0`; otherwise signals
miss"; this is that hit condition for the slot contents `e`. -/
def probeHit (e : TTEntry) (key : Nat) : Bool :=
  e.zobrist_key_verify == key && decide (e.depth ≥ 0)

/-- The struct `BoardState`: the 8-bit field `flags`, default-initialised to 0. -/
structure BoardState where
  /-- The 8-bit bitfield of state flags. -/
  flags : Nat

namespace BoardState

/-- The mask `1 << 0`. -/
def CHECK_WHITE : Nat := (1 <<< 0) % 2 ^ 8
/-- The mask `1 << 1`. -/
def CHECK_BLACK : Nat := (1 <<< 1) % 2 ^ 8
/-- The mask `1 << 2`. -/
def STALEMATE : Nat := (1 <<< 2) % 2 ^ 8
/-- The mask `1 << 3`. -/
def CHECKMATE_WHITE : Nat := (1 <<< 3) % 2 ^ 8
/-- The mask `1 << 4`. -/
def CHECKMATE_BLACK : Nat := (1 <<< 4) % 2 ^ 8
/-- The mask `1 << 5`. -/
def DRAW_REPETITION : Nat := (1 <<< 5) % 2 ^ 8
/-- The mask `1 << 6`. -/
def DRAW_50 : Nat := (1 <<< 6) % 2 ^ 8
/-- The mask `1 << 7`. -/
def DRAW_INSUFFICIENT : Nat := (1 <<< 7) % 2 ^ 8

/-- `BoardState::isCheckWhite`: the conversion of `flags & CHECK_WHITE` to `bool`. -/
def isCheckWhite (s : BoardState) : Bool := (s.flags &&& CHECK_WHITE) != 0

/-- `BoardState::isCheckBlack`. -/
def isCheckBlack (s : BoardState) : Bool := (s.flags &&& CHECK_BLACK) != 0

/-- `BoardState::isCheckmateWhite`. -/
def isCheckmateWhite (s : BoardState) : Bool := (s.flags &&& CHECKMATE_WHITE) != 0

/-- `BoardState::isCheckmateBlack`. -/
def isCheckmateBlack (s : BoardState) : Bool := (s.flags &&& CHECKMATE_BLACK) != 0

/-- `BoardState::isStalemate`. -/
def isStalemate (s : BoardState) : Bool := (s.flags &&& STALEMATE) != 0

/-- `BoardState::isDrawRepetition`. -/
def isDrawRepetition (s : BoardState) : Bool := (s.flags &&& DRAW_REPETITION) != 0

/-- `BoardState::isDraw50`. -/
def isDraw50 (s : BoardState) : Bool := (s.flags &&& DRAW_50) != 0

/-- `BoardState::isDrawInsufficient`. -/
def isDrawInsufficient (s : BoardState) : Bool := (s.flags &&& DRAW_INSUFFICIENT) != 0

/-- `BoardState::isDraw`. -/
def isDraw (s : BoardState) : Bool :=
  (s.flags &&& (STALEMATE ||| DRAW_REPETITION ||| DRAW_50 ||| DRAW_INSUFFICIENT)) != 0

/-- The eight flag masks, in the order of their bits. -/
def masks : List Nat :=
  [CHECK_WHITE, CHECK_BLACK, STALEMATE, CHECKMATE_WHITE, CHECKMATE_BLACK,
    DRAW_REPETITION, DRAW_50, DRAW_INSUFFICIENT]

/-- The values of the eight predicates on a state, in the order of `masks`. -/
def predicates (s : BoardState) : List Bool :=
  [s.isCheckWhite, s.isCheckBlack, s.isStalemate, s.isCheckmateWhite, s.isCheckmateBlack,
    s.isDrawRepetition, s.isDraw50, s.isDrawInsufficient]

/-- The flags byte whose bit `j` is the `j`-th truth value of the list. -/
def flagsOfPredicates : List Bool → Nat
  | [] => 0
  | b :: bs => (if b then 1 else 0) + 2 * flagsOfPredicates bs

/-- The update `flags |= mask` on the 8-bit field. -/
def setMask (s : BoardState) (mask : Nat) : BoardState := BoardState.mk ((s.flags ||| mask) % 2 ^ 8)

/-- The update `flags &= ~mask` on the 8-bit field. -/
def clearMask (s : BoardState) (mask : Nat) : BoardState :=
  BoardState.mk (s.flags &&& ((2 ^ 8 - 1) ^^^ mask))

end BoardState

namespace Utils

/-! ## Machine arithmetic helpers -/

/-- Conversion of an unsigned value to `int` (`static_cast<int>`): keep the low
32 bits and read them as a two's-complement number. -/
def toInt32 (n : Nat) : Int :=
  if n % 2 ^ 32 < 2 ^ 31 then ((n % 2 ^ 32 : Nat) : Int) else ((n % 2 ^ 32 : Nat) : Int) - 2 ^ 32

/-- Implicit conversion of an `int` to `uint64_t`: reduction modulo `2 ^ 64`. -/
def toUInt64 (i : Int) : Nat := (i % 2 ^ 64).toNat

/-- The expression `1ULL << sq` for an `int` shift count.  C++ defines it only for
`0 <= sq < 64`, where it is `2 ^ sq`. -/
def shl1ULL (sq : Int) : Nat := (1 <<< sq.toNat) % 2 ^ 64

/-- The expression `1 << bit` in `int` arithmetic.  It is `2 ^ bit` for
`0 <= bit <= 30`; for `bit = 31` the value wraps to `-2 ^ 31`, and for `bit >= 32`,
where C++ leaves the shift undefined, the low 32 bits of `2 ^ bit` give `0`. -/
def shl1Int (bit : Nat) : Int := toInt32 (1 <<< bit)

/-- The expression `~x` on a `uint64_t`. -/
def not64 (x : Nat) : Nat := (2 ^ 64 - 1) ^^^ x

/-- Digit-by-digit sum of the low `fuel` binary digits of `x`. -/
def popcountGo : Nat → Nat → Nat
  | 0, _ => 0
  | fuel + 1, x => x % 2 + popcountGo fuel (x / 2)

/-- The builtin `__builtin_popcountll`: "returns the number of 1-bits in x", for a
64-bit operand. -/
def popcountll (x : Nat) : Nat := popcountGo 64 x

/-- Number of zero binary digits of `x` below its lowest one digit, looking at no
more than `fuel` digits. -/
def ctzGo : Nat → Nat → Nat
  | 0, _ => 0
  | fuel + 1, x => if x % 2 = 1 then 0 else 1 + ctzGo fuel (x / 2)

/-- The builtin `__builtin_ctzll`: "returns the number of trailing 0-bits in x,
starting at the least significant bit position", for a non-zero 64-bit operand. -/
def ctzll (x : Nat) : Nat := ctzGo 64 x

/-! ## Utils.hpp -/

/-- `Utils::countSetBits`. -/
def countSetBits (bitboard : Nat) : Int := toInt32 (popcountll bitboard)

/-- `Utils::findFirstSetBit` (the GCC/Clang branch). -/
def findFirstSetBit (value : Nat) : Int :=
  if value ≠ 0 then (ctzll value : Int) else -1

/-- `Utils::getFile`. -/
def getFile (square : Int) : Int := Int.land square 7

/-- `Utils::getRank`. -/
def getRank (square : Int) : Int := Int.shiftRight square 3

/-- `Utils::getSquare`. -/
def getSquare (rank file : Nat) : Int := toInt32 ((8 * rank + file) % 2 ^ 64)

/-- `Utils::getRow`. -/
def getRow (square : Int) (white : Bool) : Int :=
  if white then 7 - Int.tdiv square 8 else Int.tdiv square 8

/-- `Utils::getCol`. -/
def getCol (square : Int) (white : Bool) : Int :=
  if white then Int.tmod square 8 else 7 - Int.tmod square 8

/-- `Utils::popBit`; the updated value of the reference parameter `bn` is returned. -/
def popBit (bn : Nat) (sq : Int) : Nat := bn &&& not64 (shl1ULL sq)

/-- The table `index64` local to `bitScanForward`. -/
def index64 : List Nat :=
  [ 0, 47,  1, 56, 48, 27,  2, 60,
   57, 49, 41, 37, 28, 16,  3, 61,
   54, 58, 35, 52, 50, 42, 21, 44,
   38, 32, 29, 23, 17, 11,  4, 62,
   46, 55, 26, 59, 40, 36, 15, 53,
   34, 51, 20, 43, 31, 22, 10, 45,
   25, 39, 14, 33, 19, 30,  9, 24,
   13, 18,  8, 12,  7,  6,  5, 63]

/-- The constant `debruijn64` local to `bitScanForward`. -/
def debruijn64 : Nat := 0x03f79d71b4cb0a89

/-- `Utils::bitScanForward`.  The subtraction and the multiplication wrap around
modulo `2 ^ 64`; the table index is the top six bits of the product. -/
def bitScanForward (bb : Nat) : Int :=
  ((index64.getD
      ((((bb ^^^ ((bb + (2 ^ 64 - 1)) % 2 ^ 64)) * debruijn64) % 2 ^ 64) >>> 58) 0 : Nat) : Int)

/-- The body of the `for` loop of `setOccupancy`, iterated `n` more times starting
with loop counter `bit`, remaining mask `attack_mask` and accumulator `occupancy`. -/
def setOccupancyLoop : Nat → Nat → Int → Nat → Nat → Nat
  | 0, _, _, _, occupancy => occupancy
  | n + 1, bit, index, attack_mask, occupancy =>
    let lsb_sq := bitScanForward attack_mask
    let attack_mask' := popBit attack_mask lsb_sq
    let occupancy' :=
      if Int.land index (shl1Int bit) ≠ 0 then occupancy ||| shl1ULL lsb_sq else occupancy
    setOccupancyLoop n (bit + 1) index attack_mask' occupancy'

/-- `Utils::setOccupancy`.  The loop `for (bit = 0; bit < bits_in_mask; bit++)` runs
`bits_in_mask` times, and not at all when `bits_in_mask <= 0`. -/
def setOccupancy (index bits_in_mask : Int) (attack_mask : Nat) : Nat :=
  setOccupancyLoop bits_in_mask.toNat 0 index attack_mask 0

/-- `Utils::get_direction`. -/
def get_direction (diff : Int) : Int :=
  if Int.tmod diff 8 = 0 then (if diff > 0 then 8 else -8)
  else if Int.tmod diff 7 = 0 then (if diff > 0 then 7 else -7)
  else if Int.tmod diff 9 = 0 then (if diff > 0 then 9 else -9)
  else if Int.tmod diff 1 = 0 then (if diff > 0 then 1 else -1)
  else 0

/-- `Utils::calculateDistance`. -/
def calculateDistance (sq1 sq2 : Int) : Int :=
  let dx : Int := ((Int.tmod sq1 8 - Int.tmod sq2 8).natAbs : Int)
  let dy : Int := ((Int.tdiv sq1 8 - Int.tdiv sq2 8).natAbs : Int)
  max dx dy

/-! ## Reference notions used to state the properties -/

/-- The naive population count: test each of the 64 bit positions in turn and
count the positions whose bit is set. -/
def naiveCount (b : Nat) : Nat :=
  (List.range 64).foldl (fun count i => if (b >>> i) &&& 1 = 1 then count + 1 else count) 0

/-- The bitboard whose set bits are exactly the positions listed in `ps`. -/
def maskOf (ps : List Nat) : Nat := (ps.map (fun p => 2 ^ p)).foldr (· ||| ·) 0

/-- The positions of the set bits of `m`, in increasing order. -/
def setBitPositions (m : Nat) : List Nat := (List.range 64).filter (fun i => m.testBit i)

/-- The bitboard selected from the positions `ps` by the binary digits of `index`:
the `j`-th position of the list is taken exactly when digit `j` of `index` is one. -/
def selectBits : Nat → List Nat → Nat
  | _, [] => 0
  | index, p :: ps => (if index % 2 = 1 then 2 ^ p else 0) ||| selectBits (index / 2) ps

/-- The table index computed inside `bitScanForward`:
`((bb ^ (bb - 1)) * debruijn64) >> 58` in 64-bit unsigned arithmetic. -/
def bitScanIndex (bb : Nat) : Nat :=
  (((bb ^^^ ((bb + (2 ^ 64 - 1)) % 2 ^ 64)) * debruijn64) % 2 ^ 64) >>> 58

/-- The bitboard that the loop of `setOccupancy` builds from the positions `ps`
when its counter starts at `bit`: the `j`-th position is taken exactly when the
test `index & (1 << (bit + j))` of the loop succeeds. -/
def selectBy (index : Int) : Nat → List Nat → Nat
  | _, [] => 0
  | bit, p :: ps =>
    (if Int.land index (shl1Int bit) ≠ 0 then 2 ^ p else 0) ||| selectBy index (bit + 1) ps

/-- Two squares of the board are a king step apart: they differ, and their files
and their ranks each differ by at most one. -/
def kingStep (a b : Int) : Prop :=
  (0 ≤ a ∧ a ≤ 63) ∧ (0 ≤ b ∧ b ≤ 63) ∧ a ≠ b ∧
    (getFile a - getFile b).natAbs ≤ 1 ∧ (getRank a - getRank b).natAbs ≤ 1

/-- Starting on square `a` and visiting the squares of `path` in order is a
sequence of king steps that ends on square `b`; it takes `path.length` steps. -/
def isKingPath : Int → List Int → Int → Prop
  | a, [], b => a = b
  | a, s :: rest, b => kingStep a s ∧ isKingPath s rest b

end Utils

end ChessEngine

open ChessEngine ChessEngine.Utils

/-! ## Machine arithmetic lemmas -/

theorem toInt32_of_lt {n : Nat} (h : n < 2 ^ 31) : toInt32 n = (n : Int) := by
  have h1 : n % 2 ^ 32 = n := Nat.mod_eq_of_lt (by omega)
  unfold toInt32
  rw [h1, if_pos h]

theorem shl1ULL_of_lt {n : Nat} (h : n < 64) : shl1ULL (n : Int) = 2 ^ n := by
  unfold shl1ULL
  rw [Int.toNat_ofNat, Nat.one_shiftLeft]
  exact Nat.mod_eq_of_lt (Nat.pow_lt_pow_right (by decide) h)

theorem testBit_not64 (x i : Nat) :
    (not64 x).testBit i = xor (decide (i < 64)) (x.testBit i) := by
  unfold not64
  rw [Nat.testBit_xor, Nat.testBit_two_pow_sub_one]

theorem and_one_eq_one_iff_testBit (b i : Nat) : (b >>> i) &&& 1 = 1 ↔ b.testBit i = true := by
  rw [Nat.and_one_is_mod, Nat.shiftRight_eq_div_pow, Nat.testBit_to_div_mod]
  simp

/-! ## Population count -/

theorem popcountGo_eq_countP (fuel x : Nat) :
    popcountGo fuel x = (List.range fuel).countP (fun i => x.testBit i) := by
  induction fuel generalizing x with
  | zero => rfl
  | succ n ih =>
    rw [popcountGo, ih, List.range_succ_eq_map, List.countP_cons, List.countP_map]
    have hfun : ((fun i => x.testBit i) ∘ Nat.succ) = fun i => (x / 2).testBit i := by
      funext i
      exact Nat.testBit_succ x i
    rw [hfun, Nat.testBit_zero]
    rcases Nat.mod_two_eq_zero_or_one x with h | h
    · simp [h]
    · simp [h]; omega

theorem foldl_count_eq (p : Nat → Prop) [DecidablePred p] (l : List Nat) (c : Nat) :
    l.foldl (fun count i => if p i then count + 1 else count) c
      = c + l.countP (fun i => decide (p i)) := by
  induction l generalizing c with
  | nil => simp
  | cons a l ih =>
    rw [List.foldl_cons, ih, List.countP_cons]
    by_cases h : p a
    · simp [h]; omega
    · simp [h]

theorem naiveCount_eq_countP (b : Nat) :
    naiveCount b = (List.range 64).countP (fun i => b.testBit i) := by
  unfold naiveCount
  rw [foldl_count_eq (fun i => (b >>> i) &&& 1 = 1), Nat.zero_add]
  congr 1
  funext i
  rw [Bool.eq_iff_iff]
  simp [and_one_eq_one_iff_testBit]

theorem popcountll_le (b : Nat) : popcountll b ≤ 64 := by
  unfold popcountll
  rw [popcountGo_eq_countP]
  exact (List.countP_le_length _).trans (by simp)

theorem countSetBits_eq_popcountll (b : Nat) : countSetBits b = (popcountll b : Int) :=
  toInt32_of_lt (by have := popcountll_le b; omega)

theorem popcountGo_eq_digits (fuel x : Nat) (hx : x < 2 ^ fuel) :
    popcountGo fuel x = (Nat.digits 2 x).count 1 := by
  induction fuel generalizing x with
  | zero =>
    have h0 : x = 0 := by simpa using hx
    subst h0
    simp [popcountGo]
  | succ n ih =>
    rcases Nat.eq_zero_or_pos x with h0 | hpos
    · subst h0
      have hz : popcountGo n 0 = 0 := by simpa using ih 0 (Nat.pos_pow_of_pos n (by decide))
      simp [popcountGo, hz]
    · have hlt : x / 2 < 2 ^ n := by
        rw [Nat.div_lt_iff_lt_mul (by decide)]
        rw [Nat.pow_succ] at hx
        exact hx
      rw [popcountGo, ih _ hlt, Nat.digits_def' (by decide) hpos, List.count_cons]
      rcases Nat.mod_two_eq_zero_or_one x with h | h
      · simp [h]
      · simp [h]; omega

/-- C1: for every 64-bit bitboard `b`, `countSetBits b` is the number of 1-bits in
the binary representation of `b`, and it agrees with the naive loop that tests
each of the 64 bit positions and counts the set ones. -/
theorem countSetBits_eq_naiveCount (b : Nat) (hb : b < 2 ^ 64) :
    countSetBits b = ((Nat.digits 2 b).count 1 : Nat) ∧
      countSetBits b = (naiveCount b : Int) := by
  refine ⟨?_, ?_⟩
  · rw [countSetBits_eq_popcountll]
    unfold popcountll
    rw [popcountGo_eq_digits 64 b hb]
  · rw [countSetBits_eq_popcountll, naiveCount_eq_countP]
    unfold popcountll
    rw [popcountGo_eq_countP]

theorem countSetBits_eq_naiveCount_witness :
    (0xF0F1 : Nat) < 2 ^ 64 ∧ countSetBits 0xF0F1 = 9 ∧
      (countSetBits 0xF0F1 = ((Nat.digits 2 0xF0F1).count 1 : Nat) ∧
        countSetBits 0xF0F1 = (naiveCount 0xF0F1 : Int)) :=
  ⟨by decide, by decide, countSetBits_eq_naiveCount 0xF0F1 (by decide)⟩

/-! ## First set bit -/

theorem ctzGo_spec (fuel x : Nat) (hx0 : x ≠ 0) (hx : x < 2 ^ fuel) :
    ctzGo fuel x < fuel ∧ x.testBit (ctzGo fuel x) = true ∧
      ∀ j, j < ctzGo fuel x → x.testBit j = false := by
  induction fuel generalizing x with
  | zero =>
    exfalso
    have : x = 0 := by simpa using hx
    exact hx0 this
  | succ n ih =>
    rw [ctzGo]
    by_cases h : x % 2 = 1
    · rw [if_pos h]
      refine ⟨Nat.succ_pos n, ?_, ?_⟩
      · rw [Nat.testBit_zero]; simpa using h
      · intro j hj; exact absurd hj (Nat.not_lt_zero j)
    · rw [if_neg h]
      have hlt : x / 2 < 2 ^ n := by
        rw [Nat.div_lt_iff_lt_mul (by decide)]
        rw [Nat.pow_succ] at hx
        exact hx
      have hne : x / 2 ≠ 0 := by omega
      obtain ⟨h1, h2, h3⟩ := ih (x / 2) hne hlt
      refine ⟨by omega, ?_, ?_⟩
      · rw [Nat.add_comm, Nat.testBit_succ]; exact h2
      · intro j hj
        cases j with
        | zero => rw [Nat.testBit_zero]; simpa using h
        | succ j => rw [Nat.testBit_succ]; exact h3 j (by omega)

/-- C2: for every 64-bit value `b ≠ 0`, `findFirstSetBit b` is the lowest index
`i` in `0..63` whose bit is set in `b` (bit `i` is set and every bit below `i` is
clear); and `findFirstSetBit 0 = -1`. -/
theorem findFirstSetBit_lowest (b : Nat) (hb : b < 2 ^ 64) (hb0 : b ≠ 0) :
    (∃ i : Nat, findFirstSetBit b = (i : Int) ∧ i ≤ 63 ∧ b.testBit i = true ∧
        ∀ j, j < i → b.testBit j = false) ∧
      findFirstSetBit 0 = -1 := by
  refine ⟨⟨ctzll b, ?_, ?_⟩, by decide⟩
  · unfold findFirstSetBit
    rw [if_pos hb0]
  · obtain ⟨h1, h2, h3⟩ := ctzGo_spec 64 b hb0 hb
    exact ⟨by unfold ctzll; omega, h2, h3⟩

theorem findFirstSetBit_lowest_witness :
    findFirstSetBit 40 = 3 ∧
      ((∃ i : Nat, findFirstSetBit 40 = (i : Int) ∧ i ≤ 63 ∧ Nat.testBit 40 i = true ∧
          ∀ j, j < i → Nat.testBit 40 j = false) ∧
        findFirstSetBit 0 = -1) :=
  ⟨by decide, findFirstSetBit_lowest 40 (by decide) (by decide)⟩

/-! ## Square arithmetic -/

/-- C9: for every square `sq` in `0..63`, `getFile sq = sq mod 8` and
`getRank sq = sq div 8`, both in `0..7`, and `getSquare (getRank sq) (getFile sq) = sq`;
conversely for every rank `r` and file `f` in `0..7`, `getSquare r f = 8 * r + f`
lies in `0..63`, with `getRank (getSquare r f) = r` and `getFile (getSquare r f) = f`. -/
theorem getSquare_getRank_getFile (sq : Int) (h0 : 0 ≤ sq) (h63 : sq ≤ 63)
    (r f : Nat) (hr : r ≤ 7) (hf : f ≤ 7) :
    (getFile sq = sq % 8 ∧ getRank sq = sq / 8 ∧
      (0 ≤ getFile sq ∧ getFile sq ≤ 7) ∧ (0 ≤ getRank sq ∧ getRank sq ≤ 7) ∧
      getSquare (toUInt64 (getRank sq)) (toUInt64 (getFile sq)) = sq) ∧
    (getSquare r f = 8 * (r : Int) + (f : Int) ∧
      (0 ≤ getSquare r f ∧ getSquare r f ≤ 63) ∧
      getRank (getSquare r f) = (r : Int) ∧ getFile (getSquare r f) = (f : Int)) := by
  constructor
  · interval_cases sq <;> decide
  · interval_cases r <;> interval_cases f <;> decide

theorem getSquare_getRank_getFile_witness :
    (getFile 13 = 13 % 8 ∧ getRank 13 = 13 / 8 ∧
      (0 ≤ getFile 13 ∧ getFile 13 ≤ 7) ∧ (0 ≤ getRank 13 ∧ getRank 13 ≤ 7) ∧
      getSquare (toUInt64 (getRank 13)) (toUInt64 (getFile 13)) = 13) ∧
    (getSquare 6 2 = 8 * ((6 : Nat) : Int) + ((2 : Nat) : Int) ∧
      (0 ≤ getSquare 6 2 ∧ getSquare 6 2 ≤ 63) ∧
      getRank (getSquare 6 2) = ((6 : Nat) : Int) ∧ getFile (getSquare 6 2) = ((2 : Nat) : Int)) :=
  getSquare_getRank_getFile 13 (by decide) (by decide) 6 2 (by decide) (by decide)

/-! ## Clearing a bit -/

theorem testBit_eq_false_of_lt_of_le {b n j : Nat} (hb : b < 2 ^ n) (hj : n ≤ j) :
    b.testBit j = false :=
  Nat.testBit_lt_two_pow (lt_of_lt_of_le hb (Nat.pow_le_pow_right (by decide) hj))

theorem testBit_popBit (b sq : Nat) (hb : b < 2 ^ 64) (hsq : sq < 64) (j : Nat) :
    (popBit b (sq : Int)).testBit j = (b.testBit j && decide (j ≠ sq)) := by
  unfold popBit
  rw [Nat.testBit_and, testBit_not64, shl1ULL_of_lt hsq, Nat.testBit_two_pow]
  by_cases hj : j < 64
  · by_cases hjs : sq = j
    · subst hjs; simp [hj]
    · have hjs' : j ≠ sq := fun h => hjs h.symm
      simp [hj, hjs, hjs']
  · have hf : b.testBit j = false := testBit_eq_false_of_lt_of_le hb (by omega)
    simp [hf]

theorem popBit_lt (b : Nat) (sq : Int) (hb : b < 2 ^ 64) : popBit b sq < 2 ^ 64 :=
  lt_of_le_of_lt Nat.and_le_left hb

theorem countP_range_clear (p : Nat → Bool) (n sq : Nat) (hsq : sq < n) (hp : p sq = true) :
    (List.range n).countP (fun j => p j && decide (j ≠ sq)) + 1 = (List.range n).countP p := by
  induction n with
  | zero => exact absurd hsq (Nat.not_lt_zero sq)
  | succ n ih =>
    rw [List.range_succ, List.countP_append, List.countP_append]
    by_cases h : sq = n
    · subst h
      have hsame : (List.range sq).countP (fun j => p j && decide (j ≠ sq))
          = (List.range sq).countP p := by
        apply List.countP_congr
        intro j hj
        have hlt : j < sq := List.mem_range.mp hj
        have hne : j ≠ sq := by omega
        simp [hne]
      rw [hsame]
      simp [hp]
    · have ih' := ih (by omega)
      have hne : n ≠ sq := fun e => h e.symm
      have hlast : [n].countP (fun j => p j && decide (j ≠ sq)) = [n].countP p := by
        simp [List.countP_cons, hne]
      rw [hlast]
      omega

/-- C10: for every 64-bit bitboard `b` and every square `sq` in `0..63`, after
`popBit b sq` bit `sq` is 0 and every other bit is unchanged; consequently `popBit`
is idempotent, leaves `b` unchanged when bit `sq` was already clear, and lowers
`countSetBits b` by exactly 1 when bit `sq` was set. -/
theorem popBit_clears_exactly (b sq : Nat) (hb : b < 2 ^ 64) (hsq : sq ≤ 63) :
    (popBit b (sq : Int)).testBit sq = false ∧
      (∀ j, j ≠ sq → (popBit b (sq : Int)).testBit j = b.testBit j) ∧
      popBit (popBit b (sq : Int)) (sq : Int) = popBit b (sq : Int) ∧
      (b.testBit sq = false → popBit b (sq : Int) = b) ∧
      (b.testBit sq = true → countSetBits (popBit b (sq : Int)) = countSetBits b - 1) := by
  have hsq' : sq < 64 := by omega
  have hpop := popBit_lt b (sq : Int) hb
  refine ⟨?_, ?_, ?_, ?_, ?_⟩
  · rw [testBit_popBit b sq hb hsq']; simp
  · intro j hj
    rw [testBit_popBit b sq hb hsq']; simp [hj]
  · apply Nat.eq_of_testBit_eq
    intro j
    rw [testBit_popBit _ sq hpop hsq', testBit_popBit b sq hb hsq']
    cases b.testBit j <;> simp
  · intro hclear
    apply Nat.eq_of_testBit_eq
    intro j
    rw [testBit_popBit b sq hb hsq']
    by_cases hj : j = sq
    · subst hj; simp [hclear]
    · simp [hj]
  · intro hset
    rw [countSetBits_eq_popcountll, countSetBits_eq_popcountll]
    unfold popcountll
    rw [popcountGo_eq_countP, popcountGo_eq_countP]
    have hfun : (fun i => (popBit b (sq : Int)).testBit i)
        = fun j => (fun i => b.testBit i) j && decide (j ≠ sq) := by
      funext j
      exact testBit_popBit b sq hb hsq' j
    rw [hfun]
    have hc := countP_range_clear (fun i => b.testBit i) 64 sq hsq' hset
    omega

theorem popBit_clears_exactly_witness :
    popBit 15 ((2 : Nat) : Int) = 11 ∧
      (Nat.testBit (popBit 15 ((2 : Nat) : Int)) 2 = false ∧
      (∀ j, j ≠ 2 → (popBit 15 ((2 : Nat) : Int)).testBit j = Nat.testBit 15 j) ∧
      popBit (popBit 15 ((2 : Nat) : Int)) ((2 : Nat) : Int) = popBit 15 ((2 : Nat) : Int) ∧
      (Nat.testBit 15 2 = false → popBit 15 ((2 : Nat) : Int) = 15) ∧
      (Nat.testBit 15 2 = true →
        countSetBits (popBit 15 ((2 : Nat) : Int)) = countSetBits 15 - 1)) :=
  ⟨by decide, popBit_clears_exactly 15 2 (by decide) (by decide)⟩

/-! ## The De Bruijn bit scan -/

theorem index64_fold_check :
    ∀ i, i < 64 →
      index64.getD ((((2 ^ (i + 1) - 1) * debruijn64) % 2 ^ 64) >>> 58) 0 = i := by
  decide

theorem xor_pred_of_lowest (bb i : Nat) (hi : bb.testBit i = true)
    (hlow : ∀ j, j < i → bb.testBit j = false) :
    bb ^^^ (bb - 1) = 2 ^ (i + 1) - 1 := by
  have hr : bb % 2 ^ (i + 1) = 2 ^ i := by
    apply Nat.eq_of_testBit_eq
    intro j
    rw [Nat.testBit_mod_two_pow, Nat.testBit_two_pow]
    by_cases hj : j < i
    · have hne : ¬ i = j := by omega
      simp [hlow j hj, hne]
    · by_cases hji : i = j
      · subst hji; simp [hi]
      · have hge : ¬ j < i + 1 := by omega
        simp [hge, hji]
  have hpos : 0 < 2 ^ i := Nat.pos_pow_of_pos i (by decide)
  have hlt1 : 2 ^ i < 2 ^ (i + 1) := Nat.pow_lt_pow_right (by decide) (Nat.lt_succ_self i)
  have hlt2 : 2 ^ i - 1 < 2 ^ (i + 1) := by omega
  obtain ⟨q, hq⟩ : ∃ q, bb = 2 ^ (i + 1) * q + 2 ^ i :=
    ⟨bb / 2 ^ (i + 1), by have := Nat.div_add_mod bb (2 ^ (i + 1)); rw [hr] at this; exact this.symm⟩
  have hpred : bb - 1 = 2 ^ (i + 1) * q + (2 ^ i - 1) := by omega
  apply Nat.eq_of_testBit_eq
  intro j
  rw [Nat.testBit_xor, Nat.testBit_two_pow_sub_one, hpred]
  nth_rewrite 1 [hq]
  rw [Nat.testBit_mul_pow_two_add q hlt1 j, Nat.testBit_mul_pow_two_add q hlt2 j]
  by_cases hj : j < i + 1
  · rw [if_pos hj, if_pos hj, Nat.testBit_two_pow, Nat.testBit_two_pow_sub_one]
    by_cases hji : i = j
    · subst hji; simp
    · have hlt : j < i := by omega
      simp [hji, hlt, hj]
  · rw [if_neg hj, if_neg hj]
    simp [hj]

theorem bitScanForward_of_lowest (bb i : Nat) (hbb : bb < 2 ^ 64) (hi : bb.testBit i = true)
    (hlow : ∀ j, j < i → bb.testBit j = false) :
    bitScanForward bb = (i : Int) := by
  have hi64 : i < 64 := by
    by_contra hge
    have := testBit_eq_false_of_lt_of_le hbb (Nat.le_of_not_lt hge)
    rw [hi] at this
    exact Bool.noConfusion this
  have hpos : 0 < bb := by
    rcases Nat.eq_zero_or_pos bb with h | h
    · subst h; simp at hi
    · exact h
  have hwrap : (bb + (2 ^ 64 - 1)) % 2 ^ 64 = bb - 1 := by omega
  unfold bitScanForward
  rw [hwrap, xor_pred_of_lowest bb i hi hlow, index64_fold_check i hi64]

/-! ## Occupancy subsets: the loop of `setOccupancy` -/

theorem testBit_maskOf (ps : List Nat) (j : Nat) :
    (maskOf ps).testBit j = decide (j ∈ ps) := by
  induction ps with
  | nil => simp [maskOf]
  | cons p ps ih =>
    have hcons : maskOf (p :: ps) = 2 ^ p ||| maskOf ps := rfl
    rw [hcons, Nat.testBit_or, ih, Nat.testBit_two_pow, Bool.eq_iff_iff]
    simp only [Bool.or_eq_true, decide_eq_true_eq, List.mem_cons]
    constructor
    · rintro (h | h)
      · exact Or.inl h.symm
      · exact Or.inr h
    · rintro (h | h)
      · exact Or.inl h.symm
      · exact Or.inr h

theorem maskOf_lt (ps : List Nat) (h64 : ∀ p ∈ ps, p < 64) : maskOf ps < 2 ^ 64 := by
  apply Nat.lt_pow_two_of_testBit
  intro j hj
  rw [testBit_maskOf]
  simp only [decide_eq_false_iff_not]
  intro hmem
  have := h64 j hmem
  omega

theorem eq_maskOf_of_testBit (m : Nat) (ps : List Nat)
    (hm : ∀ i, m.testBit i = true ↔ i ∈ ps) : m = maskOf ps := by
  apply Nat.eq_of_testBit_eq
  intro j
  rw [testBit_maskOf, Bool.eq_iff_iff]
  simp [hm]

theorem and_two_pow_eq (n i : Nat) :
    n &&& 2 ^ i = if n.testBit i = true then 2 ^ i else 0 := by
  apply Nat.eq_of_testBit_eq
  intro j
  rw [Nat.testBit_and, Nat.testBit_two_pow]
  by_cases h : n.testBit i = true
  · rw [if_pos h, Nat.testBit_two_pow]
    by_cases hij : i = j
    · subst hij; simp [h]
    · simp [hij]
  · rw [if_neg h]
    by_cases hij : i = j
    · subst hij; simp [h]
    · simp [hij]

theorem land_shl1Int (index bit : Nat) (hbit : bit ≤ 30) :
    Int.land (index : Int) (shl1Int bit) ≠ 0 ↔ (index >>> bit) % 2 = 1 := by
  have hlt : 1 <<< bit < 2 ^ 31 := by
    rw [Nat.one_shiftLeft]
    exact Nat.pow_lt_pow_right (by decide) (by omega)
  have hshl : shl1Int bit = ((2 ^ bit : Nat) : Int) := by
    unfold shl1Int
    rw [toInt32_of_lt hlt, Nat.one_shiftLeft]
  have hland : Int.land (index : Int) ((2 ^ bit : Nat) : Int) = ((index &&& 2 ^ bit : Nat) : Int) :=
    rfl
  have hpos : 0 < 2 ^ bit := Nat.pos_pow_of_pos bit (by decide)
  have htb : index.testBit bit = decide (index >>> bit % 2 = 1) := by
    rw [Nat.shiftRight_eq_div_pow]
    exact Nat.testBit_to_div_mod
  rw [hshl, hland, and_two_pow_eq]
  by_cases h : index.testBit bit = true
  · rw [if_pos h]
    rw [htb] at h
    have h1 : index >>> bit % 2 = 1 := of_decide_eq_true h
    constructor
    · intro _; exact h1
    · intro _; exact_mod_cast (Nat.ne_of_gt hpos)
  · rw [if_neg h]
    rw [htb] at h
    have h1 : ¬ index >>> bit % 2 = 1 := fun e => h (decide_eq_true e)
    constructor
    · intro hne; exact absurd rfl hne
    · intro e; exact absurd e h1

theorem setOccupancyLoop_maskOf (ps : List Nat) (hps : ps.Pairwise (· < ·))
    (h64 : ∀ p ∈ ps, p < 64) (index bit occ : Nat) (hbit : bit + ps.length ≤ 31) :
    setOccupancyLoop ps.length bit (index : Int) (maskOf ps) occ
      = occ ||| selectBits (index >>> bit) ps := by
  induction ps generalizing bit occ with
  | nil => simp [setOccupancyLoop, selectBits]
  | cons p ps ih =>
    have hp64 : p < 64 := h64 p (List.mem_cons_self _ _)
    obtain ⟨hlt, hps'⟩ := List.pairwise_cons.mp hps
    have hm64 := maskOf_lt (p :: ps) h64
    have hlen : bit + 1 + ps.length ≤ 31 := by
      rw [List.length_cons] at hbit; omega
    have hscan : bitScanForward (maskOf (p :: ps)) = (p : Int) := by
      apply bitScanForward_of_lowest _ p hm64
      · rw [testBit_maskOf]; simp
      · intro j hj
        rw [testBit_maskOf]
        simp only [decide_eq_false_iff_not, List.mem_cons, not_or]
        exact ⟨by omega, fun hmem => by have := hlt j hmem; omega⟩
    have hpop : popBit (maskOf (p :: ps)) (p : Int) = maskOf ps := by
      apply Nat.eq_of_testBit_eq
      intro j
      rw [testBit_popBit _ p hm64 hp64, testBit_maskOf, testBit_maskOf, Bool.eq_iff_iff]
      simp only [Bool.and_eq_true, decide_eq_true_eq, List.mem_cons]
      constructor
      · rintro ⟨h1 | h1, h2⟩
        · exact absurd h1 h2
        · exact h1
      · intro hmem
        exact ⟨Or.inr hmem, by have := hlt j hmem; omega⟩
    rw [List.length_cons, setOccupancyLoop]
    simp only [hscan, hpop]
    rw [ih hps' (fun q hq => h64 q (List.mem_cons_of_mem _ hq)) (bit + 1) _ hlen]
    rw [selectBits, shl1ULL_of_lt hp64, Nat.shiftRight_succ]
    by_cases hc : (index >>> bit) % 2 = 1
    · rw [if_pos ((land_shl1Int index bit (by omega)).mpr hc), if_pos hc, Nat.lor_assoc]
    · have hn : ¬ Int.land (index : Int) (shl1Int bit) ≠ 0 :=
        fun h => hc ((land_shl1Int index bit (by omega)).mp h)
      rw [if_neg hn, if_neg hc, Nat.zero_or]

theorem setOccupancy_maskOf (ps : List Nat) (hps : ps.Pairwise (· < ·))
    (h64 : ∀ p ∈ ps, p < 64) (hlen : ps.length ≤ 31) (index : Nat) :
    setOccupancy (index : Int) (ps.length : Int) (maskOf ps) = selectBits index ps := by
  unfold setOccupancy
  rw [Int.toNat_ofNat, setOccupancyLoop_maskOf ps hps h64 index 0 0 (by omega)]
  simp

theorem testBit_selectBits (ps : List Nat) (index i : Nat) :
    (selectBits index ps).testBit i = true ↔
      ∃ j, ps[j]? = some i ∧ index.testBit j = true := by
  induction ps generalizing index with
  | nil => simp [selectBits]
  | cons p ps ih =>
    rw [selectBits, Nat.testBit_or, Bool.or_eq_true, ih]
    constructor
    · rintro (h | ⟨j, hj, hb⟩)
      · by_cases hc : index % 2 = 1
        · rw [if_pos hc, Nat.testBit_two_pow] at h
          have hpi : p = i := of_decide_eq_true h
          refine ⟨0, by simp [hpi], ?_⟩
          rw [Nat.testBit_zero]
          exact decide_eq_true hc
        · rw [if_neg hc] at h
          simp at h
      · exact ⟨j + 1, by simpa using hj, by rw [Nat.testBit_succ]; exact hb⟩
    · rintro ⟨j, hj, hb⟩
      cases j with
      | zero =>
        left
        have hpi : p = i := by simpa using hj
        rw [Nat.testBit_zero] at hb
        have hc : index % 2 = 1 := of_decide_eq_true hb
        rw [if_pos hc, Nat.testBit_two_pow]
        exact decide_eq_true hpi
      | succ j =>
        right
        exact ⟨j, by simpa using hj, by rw [← Nat.testBit_succ]; exact hb⟩

theorem testBit_selectBits_getElem (ps : List Nat) (hps : ps.Pairwise (· < ·))
    (index j : Nat) (hj : j < ps.length) :
    (selectBits index ps).testBit ps[j] = index.testBit j := by
  have hnd : ps.Nodup := hps.imp (fun h => Nat.ne_of_lt h)
  rw [Bool.eq_iff_iff, testBit_selectBits]
  constructor
  · rintro ⟨j2, hj2, hb⟩
    have e : j = j2 := List.getElem?_inj hj hnd (by rw [hj2, List.getElem?_eq_getElem hj])
    rw [e]; exact hb
  · intro hb
    exact ⟨j, List.getElem?_eq_getElem hj, hb⟩

theorem selectBits_subset (ps : List Nat) (index i : Nat)
    (h : (selectBits index ps).testBit i = true) : i ∈ ps := by
  obtain ⟨j, hj, _⟩ := (testBit_selectBits ps index i).mp h
  exact List.getElem?_mem hj

theorem mem_setBitPositions (m i : Nat) :
    i ∈ setBitPositions m ↔ i < 64 ∧ m.testBit i = true := by
  unfold setBitPositions
  rw [List.mem_filter, List.mem_range]

theorem pairwise_setBitPositions (m : Nat) : (setBitPositions m).Pairwise (· < ·) :=
  List.Pairwise.sublist (List.filter_sublist _) (List.pairwise_lt_range 64)

theorem length_setBitPositions (m : Nat) : (setBitPositions m).length = popcountll m := by
  unfold setBitPositions popcountll
  rw [popcountGo_eq_countP, List.countP_eq_length_filter]

theorem testBit_iff_mem_setBitPositions (m : Nat) (hm64 : m < 2 ^ 64) (i : Nat) :
    m.testBit i = true ↔ i ∈ setBitPositions m := by
  rw [mem_setBitPositions]
  constructor
  · intro h
    refine ⟨?_, h⟩
    by_contra hge
    have := testBit_eq_false_of_lt_of_le hm64 (Nat.le_of_not_lt hge)
    rw [h] at this
    exact Bool.noConfusion this
  · exact fun h => h.2

theorem eq_setBitPositions (m : Nat) (hm64 : m < 2 ^ 64) (ps : List Nat)
    (hps : ps.Pairwise (· < ·)) (hm : ∀ i, m.testBit i = true ↔ i ∈ ps) :
    ps = setBitPositions m := by
  apply List.eq_of_perm_of_sorted _ hps (pairwise_setBitPositions m)
  rw [List.perm_ext_iff_of_nodup (hps.imp (fun h => Nat.ne_of_lt h))
    ((pairwise_setBitPositions m).imp (fun h => Nat.ne_of_lt h))]
  intro i
  rw [← hm i, testBit_iff_mem_setBitPositions m hm64 i]

theorem lt_64_of_positions (m : Nat) (hm64 : m < 2 ^ 64) (ps : List Nat)
    (hm : ∀ i, m.testBit i = true ↔ i ∈ ps) : ∀ p ∈ ps, p < 64 := by
  intro p hp
  exact ((mem_setBitPositions m p).mp
    ((testBit_iff_mem_setBitPositions m hm64 p).mp ((hm p).mpr hp))).1

/-- C3: for every mask `m` whose `k` set bits are at the positions
`p_0 < p_1 < ... < p_(k-1)` (the list `ps`; `k` small enough for the index to be an
`int`) and every `index` in `[0, 2^k)`, `setOccupancy index k m` is exactly the
bitboard whose bit `p_j` is set if and only if bit `j` of `index` is set, with no
other bit set; in particular it is a subset of `m`.  Here `k` is also
`countSetBits m`. -/
theorem setOccupancy_selects (m : Nat) (hm64 : m < 2 ^ 64) (ps : List Nat)
    (hps : ps.Pairwise (· < ·)) (hm : ∀ i, m.testBit i = true ↔ i ∈ ps)
    (hk : ps.length ≤ 31) (index : Nat) (hindex : index < 2 ^ ps.length) :
    countSetBits m = (ps.length : Int) ∧
      (∀ j (hj : j < ps.length),
        (setOccupancy (index : Int) (ps.length : Int) m).testBit ps[j] = index.testBit j) ∧
      (∀ i, (setOccupancy (index : Int) (ps.length : Int) m).testBit i = true ↔
        ∃ j, ps[j]? = some i ∧ index.testBit j = true) ∧
      setOccupancy (index : Int) (ps.length : Int) m &&& not64 m = 0 := by
  have h64 := lt_64_of_positions m hm64 ps hm
  have hmask := eq_maskOf_of_testBit m ps hm
  have _hfits : (index : Int) < 2 ^ 31 := by
    have h2 : (2 : Nat) ^ ps.length ≤ 2 ^ 31 := Nat.pow_le_pow_right (by decide) hk
    have h3 : index < 2 ^ 31 := lt_of_lt_of_le hindex h2
    exact_mod_cast h3
  have hocc : setOccupancy (index : Int) (ps.length : Int) m = selectBits index ps := by
    rw [hmask]
    exact setOccupancy_maskOf ps hps h64 hk index
  refine ⟨?_, ?_, ?_, ?_⟩
  · rw [countSetBits_eq_popcountll, ← length_setBitPositions, ← eq_setBitPositions m hm64 ps hps hm]
  · intro j hj
    rw [hocc]
    exact testBit_selectBits_getElem ps hps index j hj
  · intro i
    rw [hocc]
    exact testBit_selectBits ps index i
  · apply Nat.eq_of_testBit_eq
    intro i
    rw [hocc, Nat.testBit_and, testBit_not64, Nat.zero_testBit]
    by_cases hsel : (selectBits index ps).testBit i = true
    · have hmem := selectBits_subset ps index i hsel
      have hbit : m.testBit i = true := (hm i).mpr hmem
      have hi : i < 64 := h64 i hmem
      simp [hbit, hi]
    · simp [hsel]

theorem positions_of_ten : ∀ i, Nat.testBit 10 i = true ↔ i ∈ [1, 3] := by
  intro i
  by_cases hi : i < 4
  · interval_cases i <;> decide
  · have hf : Nat.testBit 10 i = false :=
      testBit_eq_false_of_lt_of_le (n := 4) (by decide) (by omega)
    rw [hf]
    simp only [List.mem_cons, List.mem_singleton, List.not_mem_nil, or_false]
    constructor
    · intro h; exact Bool.noConfusion h
    · rintro (h | h) <;> omega

theorem setOccupancy_selects_witness :
    setOccupancy ((2 : Nat) : Int) (([1, 3] : List Nat).length : Int) 10 = 8 ∧
      (countSetBits 10 = (([1, 3] : List Nat).length : Int) ∧
      (∀ j (hj : j < ([1, 3] : List Nat).length),
        (setOccupancy ((2 : Nat) : Int) (([1, 3] : List Nat).length : Int) 10).testBit
          ([1, 3] : List Nat)[j] = Nat.testBit 2 j) ∧
      (∀ i, (setOccupancy ((2 : Nat) : Int) (([1, 3] : List Nat).length : Int) 10).testBit i = true ↔
        ∃ j, ([1, 3] : List Nat)[j]? = some i ∧ Nat.testBit 2 j = true) ∧
      setOccupancy ((2 : Nat) : Int) (([1, 3] : List Nat).length : Int) 10 &&& not64 10 = 0) :=
  ⟨by decide,
    setOccupancy_selects 10 (by decide) [1, 3] (by decide) positions_of_ten (by decide) 2
      (by decide)⟩

/-! ## Occupancy subsets: distinctness -/

theorem testBit_ite_two_pow (c : Prop) [Decidable c] (p j : Nat) :
    (if c then 2 ^ p else 0).testBit j = (decide c && decide (p = j)) := by
  by_cases h : c
  · rw [if_pos h, Nat.testBit_two_pow]; simp [h]
  · rw [if_neg h, Nat.zero_testBit]; simp [h]

theorem selectBits_inj (ps : List Nat) (hps : ps.Pairwise (· < ·)) (i1 i2 : Nat)
    (h1 : i1 < 2 ^ ps.length) (h2 : i2 < 2 ^ ps.length)
    (heq : selectBits i1 ps = selectBits i2 ps) : i1 = i2 := by
  induction ps generalizing i1 i2 with
  | nil =>
    have e1 : i1 = 0 := by simpa using h1
    have e2 : i2 = 0 := by simpa using h2
    rw [e1, e2]
  | cons p ps ih =>
    obtain ⟨hlt, hps'⟩ := List.pairwise_cons.mp hps
    have hnot : ∀ i, (selectBits i ps).testBit p = false := by
      intro i
      by_contra hcon
      have hmem := selectBits_subset ps i p (by simpa using hcon)
      exact Nat.lt_irrefl p (hlt p hmem)
    have hbits : ∀ j, (selectBits i1 (p :: ps)).testBit j = (selectBits i2 (p :: ps)).testBit j := by
      intro j; rw [heq]
    simp only [selectBits, Nat.testBit_or, testBit_ite_two_pow] at hbits
    have hlow : i1 % 2 = i2 % 2 := by
      have hp := hbits p
      rw [hnot, hnot] at hp
      simp only [decide_True, Bool.and_true, Bool.or_false, decide_eq_decide] at hp
      rcases Nat.mod_two_eq_zero_or_one i1 with a | a <;>
        rcases Nat.mod_two_eq_zero_or_one i2 with b | b <;> simp [a, b] at hp ⊢
    have hhigh : selectBits (i1 / 2) ps = selectBits (i2 / 2) ps := by
      apply Nat.eq_of_testBit_eq
      intro j
      by_cases hj : p = j
      · subst hj; rw [hnot, hnot]
      · have hb := hbits j
        simpa [hj] using hb
    have hdiv : i1 / 2 = i2 / 2 := by
      rw [List.length_cons, Nat.pow_succ] at h1 h2
      exact ih hps' (i1 / 2) (i2 / 2) (by omega) (by omega) hhigh
    omega

theorem setOccupancy_eq_selectBits (m : Nat) (hm64 : m < 2 ^ 64) (k : Nat)
    (hk : countSetBits m = (k : Int)) (hk31 : k ≤ 31) (index : Nat) :
    setOccupancy (index : Int) (k : Int) m = selectBits index (setBitPositions m) ∧
      (setBitPositions m).length = k := by
  have hlen : (setBitPositions m).length = k := by
    rw [length_setBitPositions]
    rw [countSetBits_eq_popcountll] at hk
    exact_mod_cast hk
  have hmask := eq_maskOf_of_testBit m (setBitPositions m) (testBit_iff_mem_setBitPositions m hm64)
  have h64 : ∀ p ∈ setBitPositions m, p < 64 := fun p hp => ((mem_setBitPositions m p).mp hp).1
  refine ⟨?_, hlen⟩
  have h := setOccupancy_maskOf (setBitPositions m) (pairwise_setBitPositions m) h64
    (by omega) index
  rw [← hmask, hlen] at h
  exact h

/-! ## Occupancy subsets: every subset is enumerated -/

/-- C6: the squares a1 (0) and h1 (7) are distinct, lie in `0..63` and share a rank,
so the step from a1 to h1 is `+1` (EAST) and `7 = 0 + 7 * 1`; but
`get_direction (7 - 0)` is `7` (NORTH_WEST), and stepping `calculateDistance 0 7 = 7`
times by it from square 0 leads to 49, not to 7.  Likewise a1 (0) and h8 (63) share
a diagonal of step `+9`, but `get_direction (63 - 0)` is `7`. -/
theorem get_direction_a1_h1 :
    getRank 0 = getRank 7 ∧ calculateDistance 0 7 = 7 ∧
      get_direction (7 - 0) = NORTH_WEST ∧ get_direction (7 - 0) ≠ EAST ∧
      0 + calculateDistance 0 7 * get_direction (7 - 0) = 49 ∧
      (getRank 63 - getRank 0 = getFile 63 - getFile 0 ∧
        get_direction (63 - 0) = NORTH_WEST ∧ get_direction (63 - 0) ≠ NORTH_EAST) := by
  decide

set_option maxRecDepth 100000 in
theorem get_direction_aligned_table :
    ∀ a : Fin 64, ∀ b : Fin 64,
      (a ≠ b ∧ (getRank a = getRank b ∨ getFile a = getFile b ∨
          getRank a - getRank b = getFile a - getFile b ∨
          getRank a - getRank b = getFile b - getFile a)) →
        (((b : Int) = (a : Int) + calculateDistance a b * get_direction ((b : Int) - (a : Int))) ↔
          ¬ ((getRank (a : Int) = getRank b ∧ ((b : Int) - a = 7 ∨ (b : Int) - a = -7)) ∨
              ((b : Int) - a = 63 ∨ (b : Int) - a = -63))) := by
  decide

theorem get_direction_ne_zero (diff : Int) : get_direction diff ≠ 0 := by
  unfold get_direction
  have h1 : Int.tmod diff 1 = 0 := Int.tmod_one diff
  split_ifs <;> decide

theorem not_aligned_of_knight_delta :
    ∀ a : Fin 64, ∀ b : Fin 64, ((b : Int) - (a : Int) = 10 ∨ (b : Int) - (a : Int) = 17) →
      ¬ (getRank a = getRank b ∨ getFile a = getFile b ∨
          getRank a - getRank b = getFile a - getFile b ∨
          getRank a - getRank b = getFile b - getFile a) := by
  decide

/-- C7: the knight-move deltas 10 and 17 are not the difference of two squares on
a common rank, file or diagonal (e.g. 10 = 10 - 0 = c2 - a1 and 17 = 17 - 0 = b3 - a1),
yet `get_direction 10` and `get_direction 17` are `1` (EAST), not `0` (NONE). -/
theorem get_direction_knight_delta :
    get_direction 10 = EAST ∧ get_direction 17 = EAST ∧
      get_direction 10 ≠ NONE ∧ get_direction 17 ≠ NONE ∧
      Int.tmod 10 1 = 0 ∧ Int.tmod 17 1 = 0 := by
  decide

/-! ## Chebyshev distance -/

theorem getFile_getRank_of_square (sq : Int) (h : 0 ≤ sq ∧ sq ≤ 63) :
    getFile sq = sq % 8 ∧ getRank sq = sq / 8 := by
  obtain ⟨h0, h63⟩ := h
  interval_cases sq <;> decide

theorem calculateDistance_of_squares (a b : Int) (ha : 0 ≤ a ∧ a ≤ 63) (hb : 0 ≤ b ∧ b ≤ 63) :
    calculateDistance a b
      = max (((a % 8 - b % 8).natAbs : Nat) : Int) (((a / 8 - b / 8).natAbs : Nat) : Int) := by
  unfold calculateDistance
  simp only [@Int.tmod_eq_emod a 8 ha.1 (by decide), @Int.tmod_eq_emod b 8 hb.1 (by decide),
    @Int.tdiv_eq_ediv a 8 ha.1 (by decide), @Int.tdiv_eq_ediv b 8 hb.1 (by decide)]

theorem kingStep_iff_of_squares (a s : Int) (ha : 0 ≤ a ∧ a ≤ 63) (hs : 0 ≤ s ∧ s ≤ 63) :
    kingStep a s ↔ a ≠ s ∧ (a % 8 - s % 8).natAbs ≤ 1 ∧ (a / 8 - s / 8).natAbs ≤ 1 := by
  unfold kingStep
  rw [(getFile_getRank_of_square a ha).1, (getFile_getRank_of_square a ha).2,
    (getFile_getRank_of_square s hs).1, (getFile_getRank_of_square s hs).2]
  constructor
  · exact fun h => h.2.2
  · exact fun h => ⟨ha, hs, h⟩

theorem kingStep_closer_aux (a b s : Int) (ha : 0 ≤ a ∧ a ≤ 63) (hb : 0 ≤ b ∧ b ≤ 63)
    (hs : 0 ≤ s ∧ s ≤ 63) (hne : a ≠ s)
    (hf : (a % 8 - s % 8).natAbs ≤ 1) (hr : (a / 8 - s / 8).natAbs ≤ 1)
    (hd : max (((s % 8 - b % 8).natAbs : Nat) : Int) (((s / 8 - b / 8).natAbs : Nat) : Int) + 1
      = max (((a % 8 - b % 8).natAbs : Nat) : Int) (((a / 8 - b / 8).natAbs : Nat) : Int)) :
    kingStep a s ∧ calculateDistance s b + 1 = calculateDistance a b := by
  rw [kingStep_iff_of_squares a s ha hs, calculateDistance_of_squares s b hs hb,
    calculateDistance_of_squares a b ha hb]
  exact ⟨⟨hne, hf, hr⟩, hd⟩

theorem exists_kingStep_closer (a b : Int) (ha : 0 ≤ a ∧ a ≤ 63) (hb : 0 ≤ b ∧ b ≤ 63)
    (hne : a ≠ b) :
    ∃ s, (0 ≤ s ∧ s ≤ 63) ∧ kingStep a s ∧ calculateDistance s b + 1 = calculateDistance a b := by
  obtain ⟨ha0, ha63⟩ := ha
  obtain ⟨hb0, hb63⟩ := hb
  rcases lt_trichotomy (a % 8) (b % 8) with hf | hf | hf <;>
    rcases lt_trichotomy (a / 8) (b / 8) with hr | hr | hr
  · exact ⟨a + 9, by omega, kingStep_closer_aux a b (a + 9) ⟨ha0, ha63⟩ ⟨hb0, hb63⟩
      (by omega) (by omega) (by omega) (by omega) (by omega)⟩
  · exact ⟨a + 1, by omega, kingStep_closer_aux a b (a + 1) ⟨ha0, ha63⟩ ⟨hb0, hb63⟩
      (by omega) (by omega) (by omega) (by omega) (by omega)⟩
  · exact ⟨a - 7, by omega, kingStep_closer_aux a b (a - 7) ⟨ha0, ha63⟩ ⟨hb0, hb63⟩
      (by omega) (by omega) (by omega) (by omega) (by omega)⟩
  · exact ⟨a + 8, by omega, kingStep_closer_aux a b (a + 8) ⟨ha0, ha63⟩ ⟨hb0, hb63⟩
      (by omega) (by omega) (by omega) (by omega) (by omega)⟩
  · exact absurd (by omega : a = b) hne
  · exact ⟨a - 8, by omega, kingStep_closer_aux a b (a - 8) ⟨ha0, ha63⟩ ⟨hb0, hb63⟩
      (by omega) (by omega) (by omega) (by omega) (by omega)⟩
  · exact ⟨a + 7, by omega, kingStep_closer_aux a b (a + 7) ⟨ha0, ha63⟩ ⟨hb0, hb63⟩
      (by omega) (by omega) (by omega) (by omega) (by omega)⟩
  · exact ⟨a - 1, by omega, kingStep_closer_aux a b (a - 1) ⟨ha0, ha63⟩ ⟨hb0, hb63⟩
      (by omega) (by omega) (by omega) (by omega) (by omega)⟩
  · exact ⟨a - 9, by omega, kingStep_closer_aux a b (a - 9) ⟨ha0, ha63⟩ ⟨hb0, hb63⟩
      (by omega) (by omega) (by omega) (by omega) (by omega)⟩

theorem exists_kingPath (b : Int) (hb : 0 ≤ b ∧ b ≤ 63) :
    ∀ (n : Nat) (a : Int), (0 ≤ a ∧ a ≤ 63) → calculateDistance a b = (n : Int) →
      ∃ path : List Int, isKingPath a path b ∧ path.length = n := by
  intro n
  induction n with
  | zero =>
    intro a ha hd
    rw [calculateDistance_of_squares a b ha hb] at hd
    refine ⟨[], ?_, rfl⟩
    show a = b
    omega
  | succ n ih =>
    intro a ha hd
    have hne : a ≠ b := by
      intro e
      subst e
      rw [calculateDistance_of_squares a a ha ha] at hd
      omega
    obtain ⟨s, hs, hstep, hcloser⟩ := exists_kingStep_closer a b ha hb hne
    obtain ⟨path, hpath, hlen⟩ := ih s hs (by push_cast at hd; omega)
    exact ⟨s :: path, ⟨hstep, hpath⟩, by rw [List.length_cons, hlen]⟩

theorem chebyshev_step_le (fa fs fb ra rs rb : Int) (n : Nat)
    (hf : (fa - fs).natAbs ≤ 1) (hr : (ra - rs).natAbs ≤ 1)
    (h : max (((fs - fb).natAbs : Nat) : Int) (((rs - rb).natAbs : Nat) : Int) ≤ (n : Int)) :
    max (((fa - fb).natAbs : Nat) : Int) (((ra - rb).natAbs : Nat) : Int)
      ≤ ((n + 1 : Nat) : Int) := by
  omega

theorem calculateDistance_le_of_kingPath (b : Int) (hb : 0 ≤ b ∧ b ≤ 63) :
    ∀ (path : List Int) (a : Int), (0 ≤ a ∧ a ≤ 63) → isKingPath a path b →
      calculateDistance a b ≤ (path.length : Int) := by
  intro path
  induction path with
  | nil =>
    intro a ha hp
    have e : a = b := hp
    subst e
    rw [calculateDistance_of_squares a a ha ha]
    simp
  | cons s rest ih =>
    intro a ha hp
    obtain ⟨hstep, hrest⟩ := hp
    have hs : 0 ≤ s ∧ s ≤ 63 := hstep.2.1
    have h1 := ih s hs hrest
    obtain ⟨_, hf, hr⟩ := (kingStep_iff_of_squares a s ha hs).mp hstep
    rw [calculateDistance_of_squares s b hs hb] at h1
    rw [calculateDistance_of_squares a b ha hb, List.length_cons]
    exact chebyshev_step_le _ _ _ _ _ _ _ hf hr h1

/-- C8: for every pair of squares `sq1`, `sq2` in `0..63`, `calculateDistance sq1 sq2`
is the Chebyshev distance `max |getFile sq1 - getFile sq2| |getRank sq1 - getRank sq2|`,
and it is the minimum number of king steps from `sq1` to `sq2`: some sequence of
that many king steps on the board leads from `sq1` to `sq2`, and none is shorter. -/
theorem calculateDistance_chebyshev (sq1 sq2 : Int) (h1 : 0 ≤ sq1 ∧ sq1 ≤ 63)
    (h2 : 0 ≤ sq2 ∧ sq2 ≤ 63) :
    calculateDistance sq1 sq2
        = max |getFile sq1 - getFile sq2| |getRank sq1 - getRank sq2| ∧
      (∃ path : List Int, isKingPath sq1 path sq2 ∧
        (path.length : Int) = calculateDistance sq1 sq2) ∧
      (∀ path : List Int, isKingPath sq1 path sq2 →
        calculateDistance sq1 sq2 ≤ (path.length : Int)) := by
  refine ⟨?_, ?_, ?_⟩
  · rw [calculateDistance_of_squares sq1 sq2 h1 h2, (getFile_getRank_of_square sq1 h1).1,
      (getFile_getRank_of_square sq1 h1).2, (getFile_getRank_of_square sq2 h2).1,
      (getFile_getRank_of_square sq2 h2).2, Int.natCast_natAbs, Int.natCast_natAbs]
  · have hnn : 0 ≤ calculateDistance sq1 sq2 := by
      rw [calculateDistance_of_squares sq1 sq2 h1 h2]; omega
    obtain ⟨path, hpath, hlen⟩ :=
      exists_kingPath sq2 h2 (calculateDistance sq1 sq2).toNat sq1 h1 (by omega)
    exact ⟨path, hpath, by rw [hlen]; omega⟩
  · exact fun path hp => calculateDistance_le_of_kingPath sq2 h2 path sq1 h1 hp

theorem calculateDistance_chebyshev_witness :
    calculateDistance 0 18 = 2 ∧
      (calculateDistance 0 18 = max |getFile 0 - getFile 18| |getRank 0 - getRank 18| ∧
      (∃ path : List Int, isKingPath 0 path 18 ∧
        (path.length : Int) = calculateDistance 0 18) ∧
      (∀ path : List Int, isKingPath 0 path 18 →
        calculateDistance 0 18 ≤ (path.length : Int))) :=
  ⟨by decide, calculateDistance_chebyshev 0 18 ⟨by decide, by decide⟩ ⟨by decide, by decide⟩⟩


/-! ## Display row and column -/

/-- C11 (as stated, refuted): `getCol` does not flip when the viewing side is WHITE:
for square 0 (a1, file 0) and `white = true`, `getCol 0 true` is `0`, not
`7 - getFile 0 = 7`; and with `white = false` it is `7`, not `getFile 0 = 0`. -/
theorem getCol_white_not_flipped :
    ¬ (∀ sq : Int, 0 ≤ sq → sq ≤ 63 →
        getRow sq true = 7 - getRank sq ∧ getCol sq true = 7 - getFile sq ∧
          getRow sq false = getRank sq ∧ getCol sq false = getFile sq) := by
  intro h
  have h0 := (h 0 (by decide) (by decide)).2.1
  exact absurd h0 (by decide)

/-- C11 (amended): `getRow` applies the flip exactly when the viewing side is WHITE
and `getCol` exactly when it is not: for every square `sq` in `0..63`,
`getRow sq true = 7 - getRank sq`, `getRow sq false = getRank sq`,
`getCol sq true = getFile sq` and `getCol sq false = 7 - getFile sq`. -/
theorem getRow_getCol_flip (sq : Int) (h0 : 0 ≤ sq) (h63 : sq ≤ 63) :
    getRow sq true = 7 - getRank sq ∧ getRow sq false = getRank sq ∧
      getCol sq true = getFile sq ∧ getCol sq false = 7 - getFile sq := by
  interval_cases sq <;> decide

theorem getRow_getCol_flip_witness :
    getRow 13 true = 7 - getRank 13 ∧ getRow 13 false = getRank 13 ∧
      getCol 13 true = getFile 13 ∧ getCol 13 false = 7 - getFile 13 :=
  getRow_getCol_flip 13 (by decide) (by decide)

/-- C20: for every square `sq` in `0..63` and both values of `w`, `getRow sq w` and
`getCol sq w` lie in `0..7`; `getRow sq true + getRow sq false = 7` and
`getCol sq true + getCol sq false = 7`; and for each fixed `w` the map
`sq -> (getRow sq w, getCol sq w)` is injective on `0..63`. -/
theorem getRow_getCol_rotation (sq sq2 : Int) (h0 : 0 ≤ sq) (h63 : sq ≤ 63)
    (h0' : 0 ≤ sq2) (h63' : sq2 ≤ 63) (w : Bool) :
    ((0 ≤ getRow sq w ∧ getRow sq w ≤ 7) ∧ (0 ≤ getCol sq w ∧ getCol sq w ≤ 7)) ∧
      getRow sq true + getRow sq false = 7 ∧
      getCol sq true + getCol sq false = 7 ∧
      (getRow sq w = getRow sq2 w ∧ getCol sq w = getCol sq2 w → sq = sq2) := by
  have hd : Int.tdiv sq 8 = sq / 8 := Int.tdiv_eq_ediv h0 (by decide)
  have hm : Int.tmod sq 8 = sq % 8 := Int.tmod_eq_emod h0 (by decide)
  have hd2 : Int.tdiv sq2 8 = sq2 / 8 := Int.tdiv_eq_ediv h0' (by decide)
  have hm2 : Int.tmod sq2 8 = sq2 % 8 := Int.tmod_eq_emod h0' (by decide)
  have _hsq2 : sq2 ≤ 63 := h63'
  cases w <;> simp only [getRow, getCol, hd, hm, hd2, hm2, if_true, if_false,
    Bool.false_eq_true] <;> omega

theorem getRow_getCol_rotation_witness :
    ((0 ≤ getRow 13 true ∧ getRow 13 true ≤ 7) ∧ (0 ≤ getCol 13 true ∧ getCol 13 true ≤ 7)) ∧
      getRow 13 true + getRow 13 false = 7 ∧
      getCol 13 true + getCol 13 false = 7 ∧
      (getRow 13 true = getRow 50 true ∧ getCol 13 true = getCol 50 true → (13 : Int) = 50) :=
  getRow_getCol_rotation 13 50 (by decide) (by decide) (by decide) (by decide) true

/-! ## Board-state flags -/

set_option maxRecDepth 100000 in
theorem isDraw_table :
    ∀ f, f < 256 →
      ((BoardState.mk f).isDraw =
          ((BoardState.mk f).isStalemate || (BoardState.mk f).isDrawRepetition ||
            (BoardState.mk f).isDraw50 || (BoardState.mk f).isDrawInsufficient)) ∧
        ∀ c ∈ [BoardState.CHECK_WHITE, BoardState.CHECK_BLACK, BoardState.CHECKMATE_WHITE,
            BoardState.CHECKMATE_BLACK],
          ((BoardState.mk f).setMask c).isDraw = (BoardState.mk f).isDraw ∧
            ((BoardState.mk f).clearMask c).isDraw = (BoardState.mk f).isDraw := by
  decide

/-- C12: for every `BoardState` (every value of the 8-bit field `flags`), `isDraw`
is true if and only if at least one of `isStalemate`, `isDrawRepetition`, `isDraw50`,
`isDrawInsufficient` is true; setting or clearing a check or checkmate bit never
changes `isDraw`. -/
theorem isDraw_iff (s : BoardState) (hs : s.flags < 2 ^ 8) :
    (s.isDraw = true ↔
        (s.isStalemate = true ∨ s.isDrawRepetition = true ∨ s.isDraw50 = true ∨
          s.isDrawInsufficient = true)) ∧
      ∀ c ∈ [BoardState.CHECK_WHITE, BoardState.CHECK_BLACK, BoardState.CHECKMATE_WHITE,
          BoardState.CHECKMATE_BLACK],
        (s.setMask c).isDraw = s.isDraw ∧ (s.clearMask c).isDraw = s.isDraw := by
  obtain ⟨f⟩ := s
  obtain ⟨h1, h2⟩ := isDraw_table f hs
  refine ⟨?_, h2⟩
  rw [h1]
  simp only [Bool.or_eq_true, or_assoc]

theorem isDraw_iff_witness :
    ((BoardState.mk 0x23).isDraw = true ↔
        ((BoardState.mk 0x23).isStalemate = true ∨ (BoardState.mk 0x23).isDrawRepetition = true ∨
          (BoardState.mk 0x23).isDraw50 = true ∨ (BoardState.mk 0x23).isDrawInsufficient = true)) ∧
      ∀ c ∈ [BoardState.CHECK_WHITE, BoardState.CHECK_BLACK, BoardState.CHECKMATE_WHITE,
          BoardState.CHECKMATE_BLACK],
        ((BoardState.mk 0x23).setMask c).isDraw = (BoardState.mk 0x23).isDraw ∧
          ((BoardState.mk 0x23).clearMask c).isDraw = (BoardState.mk 0x23).isDraw :=
  isDraw_iff (BoardState.mk 0x23) (by decide)

set_option maxRecDepth 100000 in
theorem predicates_table :
    ∀ f, f < 256 →
      (BoardState.mk f).predicates = (List.range 8).map (fun j => f.testBit j) ∧
        BoardState.flagsOfPredicates (BoardState.mk f).predicates = f := by
  decide

theorem predicates_flagsOfPredicates (b0 b1 b2 b3 b4 b5 b6 b7 : Bool) :
    (BoardState.mk (BoardState.flagsOfPredicates [b0, b1, b2, b3, b4, b5, b6, b7])).predicates
        = [b0, b1, b2, b3, b4, b5, b6, b7] ∧
      BoardState.flagsOfPredicates [b0, b1, b2, b3, b4, b5, b6, b7] < 256 := by
  revert b0 b1 b2 b3 b4 b5 b6 b7
  decide

theorem masks_eq : BoardState.masks = (List.range 8).map (fun i => 2 ^ i) := by decide

theorem mask_of_index (i mask : Nat) (h : BoardState.masks[i]? = some mask) :
    i < 8 ∧ mask = 2 ^ i := by
  rw [masks_eq] at h
  obtain ⟨hi, e⟩ := List.getElem?_eq_some.mp h
  have hi8 : i < 8 := by simpa using hi
  refine ⟨hi8, ?_⟩
  rw [← e]
  simp

theorem predicates_setMask (f i : Nat) (hf : f < 256) :
    ((BoardState.mk f).setMask (2 ^ i)).predicates = (BoardState.mk f).predicates.set i true := by
  have hlt : (f ||| 2 ^ i) % 2 ^ 8 < 256 := Nat.mod_lt _ (by decide)
  unfold BoardState.setMask
  rw [(predicates_table _ hlt).1, (predicates_table f hf).1]
  apply List.ext_getElem (by simp)
  intro j h1 h2
  have hj : j < 8 := by simpa using h1
  simp only [List.getElem_map, List.getElem_range, List.getElem_set, Nat.testBit_mod_two_pow,
    Nat.testBit_or, Nat.testBit_two_pow]
  by_cases hij : i = j
  · simp [hij, hj]
  · simp [hij, hj]

theorem predicates_clearMask (f i : Nat) (hf : f < 256) :
    ((BoardState.mk f).clearMask (2 ^ i)).predicates
      = (BoardState.mk f).predicates.set i false := by
  have hlt : f &&& ((2 ^ 8 - 1) ^^^ 2 ^ i) < 256 := lt_of_le_of_lt Nat.and_le_left hf
  unfold BoardState.clearMask
  rw [(predicates_table _ hlt).1, (predicates_table f hf).1]
  apply List.ext_getElem (by simp)
  intro j h1 h2
  have hj : j < 8 := by simpa using h1
  simp only [List.getElem_map, List.getElem_range, List.getElem_set, Nat.testBit_and,
    Nat.testBit_xor, Nat.testBit_two_pow_sub_one, Nat.testBit_two_pow]
  by_cases hij : i = j
  · simp [hij, hj]
  · simp [hij, hj]

/-- C13: the eight flag masks are the eight distinct single-bit values
`2^0, ..., 2^7`, whose union is `0xFF`; for every choice `b0, ..., b7` of truth
values there is exactly one flags byte on which the eight predicates return exactly
those values; and setting or clearing the `i`-th mask makes the `i`-th predicate
true, respectively false, and changes no other predicate. -/
theorem flags_independent (b0 b1 b2 b3 b4 b5 b6 b7 : Bool)
    (s : BoardState) (hs : s.flags < 2 ^ 8) (i mask : Nat)
    (hmask : BoardState.masks[i]? = some mask) :
    (BoardState.masks = (List.range 8).map (fun k => 2 ^ k) ∧ BoardState.masks.Nodup ∧
        BoardState.masks.foldr (· ||| ·) 0 = 0xFF) ∧
      (∃ t : BoardState, t.flags < 2 ^ 8 ∧ t.predicates = [b0, b1, b2, b3, b4, b5, b6, b7] ∧
        ∀ u : BoardState, u.flags < 2 ^ 8 → u.predicates = [b0, b1, b2, b3, b4, b5, b6, b7] →
          u.flags = t.flags) ∧
      ((s.setMask mask).predicates = s.predicates.set i true ∧
        (s.clearMask mask).predicates = s.predicates.set i false) := by
  obtain ⟨f⟩ := s
  obtain ⟨_, hm⟩ := mask_of_index i mask hmask
  obtain ⟨hp, hlt⟩ := predicates_flagsOfPredicates b0 b1 b2 b3 b4 b5 b6 b7
  refine ⟨⟨masks_eq, by decide, by decide⟩, ⟨BoardState.mk _, hlt, hp, ?_⟩, ?_⟩
  · rintro ⟨g⟩ hg hu
    have h2 := (predicates_table g hg).2
    rw [hu] at h2
    exact h2.symm
  · rw [hm]
    exact ⟨predicates_setMask f i hs, predicates_clearMask f i hs⟩

theorem flags_independent_witness :
    (BoardState.masks = (List.range 8).map (fun k => 2 ^ k) ∧ BoardState.masks.Nodup ∧
        BoardState.masks.foldr (· ||| ·) 0 = 0xFF) ∧
      (∃ t : BoardState, t.flags < 2 ^ 8 ∧
        t.predicates = [true, false, false, true, false, false, true, false] ∧
        ∀ u : BoardState, u.flags < 2 ^ 8 →
          u.predicates = [true, false, false, true, false, false, true, false] →
          u.flags = t.flags) ∧
      (((BoardState.mk 0x23).setMask 4).predicates = (BoardState.mk 0x23).predicates.set 2 true ∧
        ((BoardState.mk 0x23).clearMask 4).predicates
          = (BoardState.mk 0x23).predicates.set 2 false) :=
  flags_independent true false false true false false true false (BoardState.mk 0x23)
    (by decide) 2 4 (by decide)

/-! ## Transposition-table entries -/

/-- C14: a default-constructed `TTEntry` has depth `-1`, flag `FLAG_NONE`, score `0`
and `zobrist_key_verify` `0`; the hit condition (`zobrist_key_verify == key` and
`depth >= 0`) is false on it for every key, key `0` included. -/
theorem defaultEntry_is_miss (NULL_MOVE_32 key : Nat) :
    (TTEntry.defaultEntry NULL_MOVE_32).depth = -1 ∧
      (TTEntry.defaultEntry NULL_MOVE_32).flag = FLAG_NONE ∧
      (TTEntry.defaultEntry NULL_MOVE_32).score = 0 ∧
      (TTEntry.defaultEntry NULL_MOVE_32).zobrist_key_verify = 0 ∧
      probeHit (TTEntry.defaultEntry NULL_MOVE_32) key = false ∧
      probeHit (TTEntry.defaultEntry NULL_MOVE_32) 0 = false := by
  refine ⟨rfl, rfl, rfl, rfl, ?_, ?_⟩
  · unfold probeHit TTEntry.defaultEntry
    simp
  · unfold probeHit TTEntry.defaultEntry
    simp

/-! ## The De Bruijn scan against the builtin scan -/

theorem bitScanForward_eq_findFirstSetBit (bb : Nat) (hbb : bb < 2 ^ 64) (h0 : bb ≠ 0) :
    bitScanForward bb = findFirstSetBit bb ∧ bb.testBit (ctzll bb) = true ∧
      ∀ j, j < ctzll bb → bb.testBit j = false := by
  obtain ⟨_, h2, h3⟩ := ctzGo_spec 64 bb h0 hbb
  refine ⟨?_, h2, h3⟩
  unfold findFirstSetBit
  rw [if_pos h0]
  exact bitScanForward_of_lowest bb (ctzll bb) hbb h2 h3

theorem bitScanIndex_lt (bb : Nat) : bitScanIndex bb < 64 := by
  unfold bitScanIndex
  rw [Nat.shiftRight_eq_div_pow]
  have h : (bb ^^^ (bb + (2 ^ 64 - 1)) % 2 ^ 64) * debruijn64 % 2 ^ 64 < 2 ^ 64 :=
    Nat.mod_lt _ (by decide)
  omega

/-- C15: for every 64-bit `bb ≠ 0`, the De Bruijn scan `bitScanForward bb`, which is
`index64[((bb XOR (bb - 1)) * 0x03f79d71b4cb0a89 mod 2^64) >> 58]`, is the index of
the least-significant set bit of `bb` and so equals `findFirstSetBit bb`; the table
index is always in `0..63`. -/
theorem bitScanForward_refines (bb : Nat) (hbb : bb < 2 ^ 64) (h0 : bb ≠ 0) :
    bitScanForward bb = findFirstSetBit bb ∧
      bitScanForward bb = ((index64.getD (bitScanIndex bb) 0 : Nat) : Int) ∧
      bb.testBit (index64.getD (bitScanIndex bb) 0) = true ∧
      (∀ j, j < index64.getD (bitScanIndex bb) 0 → bb.testBit j = false) ∧
      bitScanIndex bb < 64 ∧ index64.length = 64 := by
  obtain ⟨h1, h2, h3⟩ := bitScanForward_eq_findFirstSetBit bb hbb h0
  have hscan : bitScanForward bb = ((ctzll bb : Nat) : Int) :=
    bitScanForward_of_lowest bb (ctzll bb) hbb h2 h3
  have hdef : bitScanForward bb = ((index64.getD (bitScanIndex bb) 0 : Nat) : Int) := rfl
  have hidx : index64.getD (bitScanIndex bb) 0 = ctzll bb := by
    rw [hdef] at hscan
    exact_mod_cast hscan
  refine ⟨h1, hdef, ?_, ?_, bitScanIndex_lt bb, rfl⟩
  · rw [hidx]; exact h2
  · rw [hidx]; exact h3

theorem bitScanForward_refines_witness :
    bitScanForward 40 = 3 ∧
      (bitScanForward 40 = findFirstSetBit 40 ∧
      bitScanForward 40 = ((index64.getD (bitScanIndex 40) 0 : Nat) : Int) ∧
      Nat.testBit 40 (index64.getD (bitScanIndex 40) 0) = true ∧
      (∀ j, j < index64.getD (bitScanIndex 40) 0 → Nat.testBit 40 j = false) ∧
      bitScanIndex 40 < 64 ∧ index64.length = 64) :=
  ⟨by decide, bitScanForward_refines 40 (by decide) (by decide)⟩

/-- C16: on the zero bitboard the De Bruijn scan does not signal emptiness:
`0 - 1` wraps to `2^64 - 1`, so `0` folds to the same value `2^64 - 1` as the single
bit `2^63`, and `bitScanForward 0 = 63 = bitScanForward (2^63)`, whereas
`findFirstSetBit 0 = -1`; for a 64-bit `bb` the two scans agree exactly when
`bb ≠ 0`. -/
theorem bitScanForward_zero (bb : Nat) (hbb : bb < 2 ^ 64) :
    bitScanForward 0 = 63 ∧ bitScanForward (2 ^ 63) = 63 ∧ findFirstSetBit 0 = -1 ∧
      (0 ^^^ ((0 + (2 ^ 64 - 1)) % 2 ^ 64) = 2 ^ 64 - 1 ∧
        2 ^ 63 ^^^ ((2 ^ 63 + (2 ^ 64 - 1)) % 2 ^ 64) = 2 ^ 64 - 1 ∧
        bitScanIndex 0 = bitScanIndex (2 ^ 63)) ∧
      (bitScanForward bb = findFirstSetBit bb ↔ bb ≠ 0) := by
  refine ⟨by decide, by decide, by decide, by decide, ?_⟩
  constructor
  · intro h e
    subst e
    exact absurd h (by decide)
  · exact fun h0 => (bitScanForward_eq_findFirstSetBit bb hbb h0).1

theorem bitScanForward_zero_witness :
    bitScanForward 0 = 63 ∧ bitScanForward (2 ^ 63) = 63 ∧ findFirstSetBit 0 = -1 ∧
      (0 ^^^ ((0 + (2 ^ 64 - 1)) % 2 ^ 64) = 2 ^ 64 - 1 ∧
        2 ^ 63 ^^^ ((2 ^ 63 + (2 ^ 64 - 1)) % 2 ^ 64) = 2 ^ 64 - 1 ∧
        bitScanIndex 0 = bitScanIndex (2 ^ 63)) ∧
      (bitScanForward 12 = findFirstSetBit 12 ↔ 12 ≠ 0) :=
  bitScanForward_zero 12 (by decide)

/-! ## The distance is a metric -/

theorem chebyshev_metric (fa fb fc ra rb rc : Int)
    (hfa : 0 ≤ fa ∧ fa ≤ 7) (hfb : 0 ≤ fb ∧ fb ≤ 7) (hra : 0 ≤ ra ∧ ra ≤ 7)
    (hrb : 0 ≤ rb ∧ rb ≤ 7) :
    (0 ≤ max (((fa - fb).natAbs : Nat) : Int) (((ra - rb).natAbs : Nat) : Int) ∧
      max (((fa - fb).natAbs : Nat) : Int) (((ra - rb).natAbs : Nat) : Int) ≤ 7) ∧
    (max (((fa - fb).natAbs : Nat) : Int) (((ra - rb).natAbs : Nat) : Int) = 0 ↔
      fa = fb ∧ ra = rb) ∧
    max (((fa - fb).natAbs : Nat) : Int) (((ra - rb).natAbs : Nat) : Int)
      = max (((fb - fa).natAbs : Nat) : Int) (((rb - ra).natAbs : Nat) : Int) ∧
    max (((fa - fc).natAbs : Nat) : Int) (((ra - rc).natAbs : Nat) : Int)
      ≤ max (((fa - fb).natAbs : Nat) : Int) (((ra - rb).natAbs : Nat) : Int)
        + max (((fb - fc).natAbs : Nat) : Int) (((rb - rc).natAbs : Nat) : Int) := by
  omega

/-- C18: `calculateDistance` is a metric on the squares `0..63`, bounded by 7: for
all squares `a`, `b`, `c` in `0..63`, `0 ≤ calculateDistance a b ≤ 7`,
`calculateDistance a b = 0` if and only if `a = b`,
`calculateDistance a b = calculateDistance b a`, and
`calculateDistance a c ≤ calculateDistance a b + calculateDistance b c`. -/
theorem calculateDistance_metric (a b c : Int) (ha : 0 ≤ a ∧ a ≤ 63) (hb : 0 ≤ b ∧ b ≤ 63)
    (hc : 0 ≤ c ∧ c ≤ 63) :
    (0 ≤ calculateDistance a b ∧ calculateDistance a b ≤ 7) ∧
      (calculateDistance a b = 0 ↔ a = b) ∧
      calculateDistance a b = calculateDistance b a ∧
      calculateDistance a c ≤ calculateDistance a b + calculateDistance b c := by
  rw [calculateDistance_of_squares a b ha hb, calculateDistance_of_squares b a hb ha,
    calculateDistance_of_squares a c ha hc, calculateDistance_of_squares b c hb hc]
  obtain ⟨h1, h2, h3, h4⟩ := chebyshev_metric (a % 8) (b % 8) (c % 8) (a / 8) (b / 8) (c / 8)
    (by omega) (by omega) (by omega) (by omega)
  refine ⟨h1, ?_, h3, h4⟩
  rw [h2]
  constructor
  · intro h; omega
  · intro h; subst h; exact ⟨rfl, rfl⟩

theorem calculateDistance_metric_witness :
    (0 ≤ calculateDistance 0 18 ∧ calculateDistance 0 18 ≤ 7) ∧
      (calculateDistance 0 18 = 0 ↔ (0 : Int) = 18) ∧
      calculateDistance 0 18 = calculateDistance 18 0 ∧
      calculateDistance 0 63 ≤ calculateDistance 0 18 + calculateDistance 18 63 :=
  calculateDistance_metric 0 18 63 ⟨by decide, by decide⟩ ⟨by decide, by decide⟩
    ⟨by decide, by decide⟩

/-! ## Antisymmetry of the direction -/

/-- C19: for every `diff ≠ 0` (an `int` whose negation is representable),
`get_direction (-diff) = - get_direction diff`; for `diff = 0` the result is `-8`
(SOUTH), not `0`, so antisymmetry fails there. -/
theorem get_direction_neg (diff : Int) (h : diff ≠ 0) :
    get_direction (-diff) = - get_direction diff ∧
      get_direction 0 = SOUTH ∧ get_direction 0 = -8 ∧
      get_direction (-0) ≠ - get_direction 0 := by
  refine ⟨?_, by decide, by decide, by decide⟩
  unfold get_direction
  simp only [← Int.dvd_iff_tmod_eq_zero, dvd_neg]
  split_ifs <;> omega

theorem get_direction_neg_witness :
    get_direction (-(18 : Int)) = - get_direction 18 ∧
      get_direction 0 = SOUTH ∧ get_direction 0 = -8 ∧
      get_direction (-0) ≠ - get_direction 0 :=
  get_direction_neg 18 (by decide)

/-! ## Occupancy subsets: more loop iterations than the caller's mask has bits -/

theorem shl1Int_of_le (bit : Nat) (hbit : bit ≤ 30) : shl1Int bit = ((2 ^ bit : Nat) : Int) := by
  have hlt : 1 <<< bit < 2 ^ 31 := by
    rw [Nat.one_shiftLeft]
    exact Nat.pow_lt_pow_right (by decide) (by omega)
  unfold shl1Int
  rw [toInt32_of_lt hlt, Nat.one_shiftLeft]

theorem ldiff_two_pow_eq (m b : Nat) :
    Nat.ldiff (2 ^ b) m = if m.testBit b = true then 0 else 2 ^ b := by
  apply Nat.eq_of_testBit_eq
  intro j
  rw [Nat.testBit_ldiff, Nat.testBit_two_pow]
  by_cases h : m.testBit b = true
  · rw [if_pos h]
    by_cases hj : b = j
    · subst hj; simp [h]
    · simp [hj]
  · rw [if_neg h, Nat.testBit_two_pow]
    by_cases hj : b = j
    · subst hj; simp [h]
    · simp [hj]

theorem land_shl1Int_iff_testBit (index : Int) (bit : Nat) (hbit : bit ≤ 30) :
    Int.land index (shl1Int bit) ≠ 0 ↔ Int.testBit index bit = true := by
  have hpos : 0 < 2 ^ bit := Nat.pos_pow_of_pos bit (by decide)
  rw [shl1Int_of_le bit hbit]
  cases index with
  | ofNat a =>
    have hland : Int.land (Int.ofNat a) ((2 ^ bit : Nat) : Int) = ((a &&& 2 ^ bit : Nat) : Int) :=
      rfl
    have htb : Int.testBit (Int.ofNat a) bit = a.testBit bit := rfl
    rw [hland, htb, and_two_pow_eq]
    by_cases h : a.testBit bit = true
    · rw [if_pos h]
      exact ⟨fun _ => h, fun _ => by exact_mod_cast (Nat.ne_of_gt hpos)⟩
    · rw [if_neg h]
      exact ⟨fun hne => absurd rfl hne, fun e => absurd e h⟩
  | negSucc m =>
    have hland : Int.land (Int.negSucc m) ((2 ^ bit : Nat) : Int)
        = ((Nat.ldiff (2 ^ bit) m : Nat) : Int) := rfl
    have htb : Int.testBit (Int.negSucc m) bit = !m.testBit bit := rfl
    rw [hland, htb, ldiff_two_pow_eq]
    by_cases h : m.testBit bit = true
    · rw [if_pos h, h]
      exact ⟨fun hne => absurd rfl hne, fun e => Bool.noConfusion e⟩
    · rw [if_neg h]
      have hf : m.testBit bit = false := by simpa using h
      rw [hf]
      exact ⟨fun _ => rfl, fun _ => by exact_mod_cast (Nat.ne_of_gt hpos)⟩

theorem testBit_eq_testBit_emod (index : Int) (n bit : Nat) (hbit : bit < n) :
    Int.testBit index bit = (index % 2 ^ n).toNat.testBit bit := by
  have hcast : ((2 : Int) ^ n) = ((2 ^ n : Nat) : Int) := by push_cast; rfl
  rw [hcast]
  cases index with
  | ofNat a =>
    have h1 : Int.ofNat a % ((2 ^ n : Nat) : Int) = ((a % 2 ^ n : Nat) : Int) := rfl
    have htb : Int.testBit (Int.ofNat a) bit = a.testBit bit := rfl
    rw [h1, htb, Int.toNat_ofNat, Nat.testBit_mod_two_pow]
    simp [hbit]
  | negSucc m =>
    have htb : Int.testBit (Int.negSucc m) bit = !m.testBit bit := rfl
    have hlt : m % 2 ^ n < 2 ^ n := Nat.mod_lt _ (Nat.pos_pow_of_pos n (by decide))
    rw [Int.emod_negSucc, Int.natAbs_ofNat, Int.subNatNat_of_le (by omega), htb, Int.toNat_ofNat,
      Nat.testBit_two_pow_sub_succ hlt, Nat.testBit_mod_two_pow]
    simp [hbit]

theorem land_shl1Int_congr (index1 index2 : Int) (n bit : Nat)
    (h1 : -2 ^ 31 ≤ index1 ∧ index1 < 2 ^ 31) (h2 : -2 ^ 31 ≤ index2 ∧ index2 < 2 ^ 31)
    (hmod : index1 % 2 ^ n = index2 % 2 ^ n) (hbit : bit < n) :
    (Int.land index1 (shl1Int bit) ≠ 0 ↔ Int.land index2 (shl1Int bit) ≠ 0) := by
  by_cases hn : n ≤ 31
  · rw [land_shl1Int_iff_testBit index1 bit (by omega),
      land_shl1Int_iff_testBit index2 bit (by omega),
      testBit_eq_testBit_emod index1 n bit hbit, testBit_eq_testBit_emod index2 n bit hbit, hmod]
  · have hdvd : ((2 : Int) ^ 32) ∣ 2 ^ n := pow_dvd_pow 2 (by omega)
    have e1 := Int.emod_emod_of_dvd index1 hdvd
    have e2 := Int.emod_emod_of_dvd index2 hdvd
    rw [hmod, e2] at e1
    have e : index1 = index2 := by
      norm_num at e1 h1 h2
      omega
    rw [e]

theorem bitScanForward_maskOf_cons (p : Nat) (ps : List Nat)
    (hps : (p :: ps).Pairwise (· < ·)) (h64 : ∀ q ∈ p :: ps, q < 64) :
    bitScanForward (maskOf (p :: ps)) = (p : Int) ∧
      popBit (maskOf (p :: ps)) (p : Int) = maskOf ps := by
  have hp64 : p < 64 := h64 p (List.mem_cons_self _ _)
  obtain ⟨hlt, _⟩ := List.pairwise_cons.mp hps
  have hm64 := maskOf_lt (p :: ps) h64
  constructor
  · apply bitScanForward_of_lowest _ p hm64
    · rw [testBit_maskOf]; simp
    · intro j hj
      rw [testBit_maskOf]
      simp only [decide_eq_false_iff_not, List.mem_cons, not_or]
      exact ⟨by omega, fun hmem => by have := hlt j hmem; omega⟩
  · apply Nat.eq_of_testBit_eq
    intro j
    rw [testBit_popBit _ p hm64 hp64, testBit_maskOf, testBit_maskOf, Bool.eq_iff_iff]
    simp only [Bool.and_eq_true, decide_eq_true_eq, List.mem_cons]
    constructor
    · rintro ⟨h1 | h1, h2⟩
      · exact absurd h1 h2
      · exact h1
    · intro hmem
      exact ⟨Or.inr hmem, by have := hlt j hmem; omega⟩

theorem setOccupancyLoop_take (n : Nat) (index : Int) :
    ∀ (ps : List Nat), ps.Pairwise (· < ·) → (∀ p ∈ ps, p < 64) → n ≤ ps.length →
      ∀ (bit occ : Nat),
        setOccupancyLoop n bit index (maskOf ps) occ = occ ||| selectBy index bit (ps.take n) := by
  induction n with
  | zero =>
    intro ps _ _ _ bit occ
    simp [setOccupancyLoop, selectBy]
  | succ n ih =>
    intro ps hps h64 hlen bit occ
    cases ps with
    | nil => exact absurd hlen (by simp)
    | cons p ps =>
      have hp64 : p < 64 := h64 p (List.mem_cons_self _ _)
      obtain ⟨hscan, hpop⟩ := bitScanForward_maskOf_cons p ps hps h64
      obtain ⟨_, hps'⟩ := List.pairwise_cons.mp hps
      rw [setOccupancyLoop]
      simp only [hscan, hpop]
      rw [ih ps hps' (fun q hq => h64 q (List.mem_cons_of_mem _ hq))
        (by rw [List.length_cons] at hlen; omega), List.take_succ_cons, selectBy,
        shl1ULL_of_lt hp64]
      by_cases hc : Int.land index (shl1Int bit) ≠ 0
      · rw [if_pos hc, if_pos hc, Nat.lor_assoc]
      · rw [if_neg hc, if_neg hc, Nat.zero_or]

theorem selectBy_subset (index : Int) (l : List Nat) (bit i : Nat)
    (h : (selectBy index bit l).testBit i = true) : i ∈ l := by
  induction l generalizing bit with
  | nil => simp [selectBy] at h
  | cons p ps ih =>
    rw [selectBy, Nat.testBit_or, Bool.or_eq_true, testBit_ite_two_pow] at h
    rcases h with h | h
    · have hpi : p = i := by
        simp only [Bool.and_eq_true, decide_eq_true_eq] at h
        exact h.2
      rw [hpi]; exact List.mem_cons_self _ _
    · exact List.mem_cons_of_mem _ (ih (bit + 1) h)

theorem selectBy_congr (index1 index2 : Int) (l : List Nat) (bit : Nat)
    (h : ∀ j, j < l.length →
      (Int.land index1 (shl1Int (bit + j)) ≠ 0 ↔ Int.land index2 (shl1Int (bit + j)) ≠ 0)) :
    selectBy index1 bit l = selectBy index2 bit l := by
  induction l generalizing bit with
  | nil => rfl
  | cons p ps ih =>
    have h0 := h 0 (by simp)
    rw [Nat.add_zero] at h0
    have hrest : selectBy index1 (bit + 1) ps = selectBy index2 (bit + 1) ps := by
      apply ih
      intro j hj
      have := h (j + 1) (by rw [List.length_cons]; omega)
      rw [show bit + (j + 1) = bit + 1 + j by omega] at this
      exact this
    rw [selectBy, selectBy, hrest]
    by_cases hc : Int.land index1 (shl1Int bit) ≠ 0
    · rw [if_pos hc, if_pos (h0.mp hc)]
    · rw [if_neg hc, if_neg (fun h2 => hc (h0.mpr h2))]

theorem setOccupancy_eq_selectBy (m : Nat) (hm64 : m < 2 ^ 64) (n : Int)
    (hn : n ≤ countSetBits m) (index : Int) :
    setOccupancy index n m = selectBy index 0 ((setBitPositions m).take n.toNat) := by
  have hlen : n.toNat ≤ (setBitPositions m).length := by
    rw [length_setBitPositions]
    rw [countSetBits_eq_popcountll] at hn
    omega
  have hmask := eq_maskOf_of_testBit m (setBitPositions m) (testBit_iff_mem_setBitPositions m hm64)
  have h64 : ∀ p ∈ setBitPositions m, p < 64 := fun p hp => ((mem_setBitPositions m p).mp hp).1
  have h := setOccupancyLoop_take n.toNat index (setBitPositions m) (pairwise_setBitPositions m)
    h64 hlen 0 0
  rw [← hmask, Nat.zero_or] at h
  exact h

/-- C17: for every 64-bit mask `m`, every `bits_in_mask ≤ countSetBits m` and every
`int` index, each bit of `setOccupancy index bits_in_mask m` is one of the
`bits_in_mask` lowest set bits of `m`, and the result depends only on the low
`bits_in_mask` bits of `index`; but with `m = 1`, `bits_in_mask = 2 > countSetBits 1`
and `index = 2` the result has bit 63 set although bit 63 is not in `m`. -/
theorem setOccupancy_within_mask (m : Nat) (hm64 : m < 2 ^ 64) (n : Int)
    (hn : n ≤ countSetBits m) (index1 index2 : Int)
    (h1 : -2 ^ 31 ≤ index1 ∧ index1 < 2 ^ 31) (h2 : -2 ^ 31 ≤ index2 ∧ index2 < 2 ^ 31) :
    (∀ i, (setOccupancy index1 n m).testBit i = true →
        i ∈ (setBitPositions m).take n.toNat ∧ m.testBit i = true) ∧
      (index1 % 2 ^ n.toNat = index2 % 2 ^ n.toNat →
        setOccupancy index1 n m = setOccupancy index2 n m) ∧
      (countSetBits 1 < 2 ∧ (setOccupancy 2 2 1).testBit 63 = true ∧
        Nat.testBit 1 63 = false) := by
  refine ⟨?_, ?_, by decide⟩
  · intro i hi
    rw [setOccupancy_eq_selectBy m hm64 n hn index1] at hi
    have hmem := selectBy_subset index1 _ 0 i hi
    exact ⟨hmem, (testBit_iff_mem_setBitPositions m hm64 i).mpr (List.mem_of_mem_take hmem)⟩
  · intro hmod
    rw [setOccupancy_eq_selectBy m hm64 n hn index1, setOccupancy_eq_selectBy m hm64 n hn index2]
    apply selectBy_congr
    intro j hj
    rw [Nat.zero_add]
    have hjn : j < n.toNat := lt_of_lt_of_le hj (List.length_take_le _ _)
    exact land_shl1Int_congr index1 index2 n.toNat j h1 h2 hmod hjn

theorem setOccupancy_within_mask_witness :
    (∀ i, (setOccupancy 5 2 0b1011).testBit i = true →
        i ∈ (setBitPositions 0b1011).take (2 : Int).toNat ∧ Nat.testBit 0b1011 i = true) ∧
      ((5 : Int) % 2 ^ (2 : Int).toNat = 9 % 2 ^ (2 : Int).toNat →
        setOccupancy 5 2 0b1011 = setOccupancy 9 2 0b1011) ∧
      (countSetBits 1 < 2 ∧ (setOccupancy 2 2 1).testBit 63 = true ∧
        Nat.testBit 1 63 = false) :=
  setOccupancy_within_mask 0b1011 (by decide) 2 (by decide) 5 9 ⟨by decide, by decide⟩
    ⟨by decide, by decide⟩

/-! ## Occupancy subsets: masks with up to 32 bits, and beyond -/

theorem shl1Int_31 : shl1Int 31 = Int.negSucc (2 ^ 31 - 1) := by decide

theorem ldiff_low31_eq (i : Nat) (hi : i < 2 ^ 32) :
    Nat.ldiff i (2 ^ 31 - 1) = if i.testBit 31 = true then 2 ^ 31 else 0 := by
  apply Nat.eq_of_testBit_eq
  intro j
  rw [Nat.testBit_ldiff, Nat.testBit_two_pow_sub_one]
  by_cases hj : j < 31
  · have hne : ¬ 31 = j := by omega
    by_cases h : i.testBit 31 = true
    · rw [if_pos h, Nat.testBit_two_pow]; simp [hj, hne]
    · rw [if_neg h]; simp [hj]
  · by_cases hj31 : 31 = j
    · subst hj31
      by_cases h : i.testBit 31 = true
      · rw [if_pos h, Nat.testBit_two_pow]; simp [h]
      · rw [if_neg h]; simp [h]
    · have hf : i.testBit j = false := testBit_eq_false_of_lt_of_le hi (by omega)
      by_cases h : i.testBit 31 = true
      · rw [if_pos h, Nat.testBit_two_pow]; simp [hf, hj31]
      · rw [if_neg h]; simp [hf]

theorem land_natCast_shl1Int (i b : Nat) (hi : i < 2 ^ 32) (hb : b ≤ 31) :
    Int.land (i : Int) (shl1Int b) ≠ 0 ↔ i.testBit b = true := by
  by_cases hb30 : b ≤ 30
  · rw [land_shl1Int_iff_testBit (i : Int) b hb30]
    exact Iff.rfl
  · have hb31 : b = 31 := by omega
    subst hb31
    have hland : Int.land (i : Int) (Int.negSucc (2 ^ 31 - 1))
        = ((Nat.ldiff i (2 ^ 31 - 1) : Nat) : Int) := rfl
    rw [shl1Int_31, hland, ldiff_low31_eq i hi]
    by_cases h : i.testBit 31 = true
    · rw [if_pos h]
      exact ⟨fun _ => h, fun _ => by decide⟩
    · rw [if_neg h]
      exact ⟨fun hne => absurd rfl hne, fun e => absurd e h⟩

theorem toInt32_eq_negSucc (i : Nat) (hlo : 2 ^ 31 ≤ i) (hi : i < 2 ^ 32) :
    toInt32 i = Int.negSucc (2 ^ 32 - 1 - i) := by
  have h1 : i % 2 ^ 32 = i := Nat.mod_eq_of_lt hi
  unfold toInt32
  rw [h1, if_neg (by omega), Int.negSucc_eq]
  omega

theorem toInt32_emod (i : Nat) (hi : i < 2 ^ 32) : (toInt32 i % 2 ^ 32).toNat = i := by
  have h1 : i % 2 ^ 32 = i := Nat.mod_eq_of_lt hi
  unfold toInt32
  rw [h1]
  by_cases h : i < 2 ^ 31
  · rw [if_pos h]; omega
  · rw [if_neg h]; omega

theorem land_toInt32_shl1Int (i b : Nat) (hi : i < 2 ^ 32) (hb : b ≤ 31) :
    Int.land (toInt32 i) (shl1Int b) ≠ 0 ↔ i.testBit b = true := by
  by_cases hb30 : b ≤ 30
  · rw [land_shl1Int_iff_testBit (toInt32 i) b hb30,
      testBit_eq_testBit_emod (toInt32 i) 32 b (by omega), toInt32_emod i hi]
  · have hb31 : b = 31 := by omega
    subst hb31
    by_cases hlt : i < 2 ^ 31
    · rw [toInt32_of_lt hlt]
      exact land_natCast_shl1Int i 31 hi hb
    · have hlo : 2 ^ 31 ≤ i := Nat.le_of_not_lt hlt
      have hland : Int.land (Int.negSucc (2 ^ 32 - 1 - i)) (Int.negSucc (2 ^ 31 - 1))
          = Int.negSucc ((2 ^ 32 - 1 - i) ||| (2 ^ 31 - 1)) := rfl
      have htb : i.testBit 31 = true := by
        rw [Nat.testBit_to_div_mod]
        apply decide_eq_true
        omega
      rw [toInt32_eq_negSucc i hlo hi, shl1Int_31, hland]
      exact ⟨fun _ => htb, fun _ h => Int.noConfusion h⟩

theorem selectBy_eq_selectBits (index : Int) (i : Nat)
    (h : ∀ b, b ≤ 31 → (Int.land index (shl1Int b) ≠ 0 ↔ i.testBit b = true)) :
    ∀ (ps : List Nat) (bit : Nat), bit + ps.length ≤ 32 →
      selectBy index bit ps = selectBits (i >>> bit) ps := by
  intro ps
  induction ps with
  | nil => intro bit _; rfl
  | cons p ps ih =>
    intro bit hlen
    rw [List.length_cons] at hlen
    have htb : i.testBit bit = decide (i >>> bit % 2 = 1) := by
      rw [Nat.shiftRight_eq_div_pow]
      exact Nat.testBit_to_div_mod
    rw [selectBy, selectBits, ih (bit + 1) (by omega), Nat.shiftRight_succ]
    by_cases hc : i >>> bit % 2 = 1
    · have hl : Int.land index (shl1Int bit) ≠ 0 :=
        (h bit (by omega)).mpr (by rw [htb]; exact decide_eq_true hc)
      rw [if_pos hl, if_pos hc]
    · have hl : ¬ Int.land index (shl1Int bit) ≠ 0 := by
        intro hl
        have := (h bit (by omega)).mp hl
        rw [htb] at this
        exact hc (of_decide_eq_true this)
      rw [if_neg hl, if_neg hc]

theorem setOccupancy_eq_selectBits_32 (m : Nat) (hm64 : m < 2 ^ 64) (k : Nat)
    (hk : countSetBits m = (k : Int)) (hk32 : k ≤ 32) (i : Nat) (hi : i < 2 ^ 32) :
    setOccupancy (i : Int) (k : Int) m = selectBits i (setBitPositions m) ∧
      setOccupancy (toInt32 i) (k : Int) m = selectBits i (setBitPositions m) ∧
      (setBitPositions m).length = k := by
  have hlen : (setBitPositions m).length = k := by
    rw [length_setBitPositions]
    rw [countSetBits_eq_popcountll] at hk
    exact_mod_cast hk
  have htake : (setBitPositions m).take (k : Int).toNat = setBitPositions m := by
    rw [Int.toNat_ofNat, ← hlen, List.take_length]
  have hle : (k : Int) ≤ countSetBits m := by rw [hk]
  refine ⟨?_, ?_, hlen⟩
  · rw [setOccupancy_eq_selectBy m hm64 (k : Int) hle (i : Int), htake,
      selectBy_eq_selectBits (i : Int) i (fun b hb => land_natCast_shl1Int i b hi hb)
        (setBitPositions m) 0 (by omega)]
    rfl
  · rw [setOccupancy_eq_selectBy m hm64 (k : Int) hle (toInt32 i), htake,
      selectBy_eq_selectBits (toInt32 i) i (fun b hb => land_toInt32_shl1Int i b hi hb)
        (setBitPositions m) 0 (by omega)]
    rfl

theorem lt_two_pow_32 {i k : Nat} (hk32 : k ≤ 32) (hi : i < 2 ^ k) : i < 2 ^ 32 :=
  lt_of_lt_of_le hi (Nat.pow_le_pow_right (by decide) hk32)

theorem land_natCast_shl1Int_31 (i : Nat) :
    Int.land (i : Int) (shl1Int 31) ≠ 0 ↔ 2 ^ 31 ≤ i := by
  have hland : Int.land (i : Int) (Int.negSucc (2 ^ 31 - 1))
      = ((Nat.ldiff i (2 ^ 31 - 1) : Nat) : Int) := rfl
  have hld : Nat.ldiff i (2 ^ 31 - 1) = (i >>> 31) <<< 31 := by
    apply Nat.eq_of_testBit_eq
    intro j
    rw [Nat.testBit_ldiff, Nat.testBit_two_pow_sub_one, Nat.testBit_shiftLeft,
      Nat.testBit_shiftRight]
    by_cases hj : j < 31
    · have hge : ¬ j ≥ 31 := by omega
      simp [hj, hge]
    · have hge : j ≥ 31 := by omega
      have e : 31 + (j - 31) = j := by omega
      simp [hj, hge, e]
  rw [shl1Int_31, hland, hld, Nat.shiftLeft_eq, Nat.shiftRight_eq_div_pow]
  constructor
  · intro h
    by_contra hlt
    apply h
    have : i / 2 ^ 31 = 0 := by omega
    rw [this]; rfl
  · intro h e
    have e2 : i / 2 ^ 31 * 2 ^ 31 = 0 := by exact_mod_cast e
    omega

theorem land_zero_right (index : Int) : Int.land index 0 = 0 := by
  cases index with
  | ofNat a =>
    show ((a &&& 0 : Nat) : Int) = 0
    simp
  | negSucc a =>
    show ((Nat.ldiff 0 a : Nat) : Int) = 0
    simp [Nat.ldiff]

theorem setOccupancy_mask33 (index : Int) :
    setOccupancy index 33 (2 ^ 33 - 1) = selectBy index 0 (List.range 33) := by
  have h := setOccupancy_eq_selectBy (2 ^ 33 - 1) (by decide) 33 (by decide) index
  have hps : (setBitPositions (2 ^ 33 - 1)).take (33 : Int).toNat = List.range 33 := by decide
  rw [hps] at h
  exact h

theorem low_bits_of_two_pow_31_32 :
    ∀ j, j < 31 → Int.land ((2 ^ 31 : Nat) : Int) (shl1Int j) = 0 ∧
      Int.land ((2 ^ 32 : Nat) : Int) (shl1Int j) = 0 := by
  decide

/-- C4 (as stated, refuted): the mask `m = 2^33 - 1` has 33 set bits, and the two
different indices `2^31` and `2^32` of `[0, 2^33)` give the same bitboard
`setOccupancy index 33 m`; so do the indices `0` and `2^32` once they are converted
to the 32-bit `int` parameter. -/
theorem setOccupancy_collision_33 :
    (2 ^ 33 - 1 < 2 ^ 64 ∧ countSetBits (2 ^ 33 - 1) = ((33 : Nat) : Int) ∧
        2 ^ 31 < 2 ^ 33 ∧ 2 ^ 32 < 2 ^ 33 ∧ 2 ^ 31 ≠ 2 ^ 32) ∧
      ¬ (setOccupancy ((2 ^ 31 : Nat) : Int) ((33 : Nat) : Int) (2 ^ 33 - 1)
          ≠ setOccupancy ((2 ^ 32 : Nat) : Int) ((33 : Nat) : Int) (2 ^ 33 - 1)) ∧
      ¬ (setOccupancy (toInt32 0) ((33 : Nat) : Int) (2 ^ 33 - 1)
          ≠ setOccupancy (toInt32 (2 ^ 32)) ((33 : Nat) : Int) (2 ^ 33 - 1)) := by
  refine ⟨by decide, ?_, ?_⟩
  · intro hne
    apply hne
    show setOccupancy ((2 ^ 31 : Nat) : Int) 33 (2 ^ 33 - 1)
      = setOccupancy ((2 ^ 32 : Nat) : Int) 33 (2 ^ 33 - 1)
    rw [setOccupancy_mask33, setOccupancy_mask33]
    apply selectBy_congr
    intro j hj
    rw [Nat.zero_add]
    have hj33 : j < 33 := by simpa using hj
    by_cases h31 : j < 31
    · obtain ⟨e1, e2⟩ := low_bits_of_two_pow_31_32 j h31
      rw [e1, e2]
    · by_cases h : j = 31
      · subst h
        rw [land_natCast_shl1Int_31, land_natCast_shl1Int_31]
        exact ⟨fun _ => by decide, fun _ => by decide⟩
      · have h32 : j = 32 := by omega
        subst h32
        rw [show shl1Int 32 = 0 from by decide, land_zero_right, land_zero_right]
  · intro hne
    apply hne
    rw [show toInt32 (2 ^ 32) = toInt32 0 from by decide]

/-- C4 (amended): for every mask `m` with `k` set bits, `k ≤ 32`, two different
indices in `[0, 2^k)` never give the same bitboard `setOccupancy index k m`, whether
the index is taken as it is or as the 32-bit `int` it is converted to (the two differ
only for `k = 32`, on the indices from `2^31` up); so the `2^k` indices yield `2^k`
distinct results. -/
theorem setOccupancy_distinct (m : Nat) (hm64 : m < 2 ^ 64) (k : Nat)
    (hk : countSetBits m = (k : Int)) (hk32 : k ≤ 32)
    (i1 i2 : Nat) (h1 : i1 < 2 ^ k) (h2 : i2 < 2 ^ k) (hne : i1 ≠ i2) :
    (setOccupancy (i1 : Int) (k : Int) m ≠ setOccupancy (i2 : Int) (k : Int) m ∧
        setOccupancy (toInt32 i1) (k : Int) m ≠ setOccupancy (toInt32 i2) (k : Int) m) ∧
      ((Finset.range (2 ^ k)).image
        (fun i : Nat => setOccupancy (i : Int) (k : Int) m)).card = 2 ^ k ∧
      ((Finset.range (2 ^ k)).image
        (fun i : Nat => setOccupancy (toInt32 i) (k : Int) m)).card = 2 ^ k := by
  have hsel : ∀ a : Nat, a < 2 ^ k →
      setOccupancy (a : Int) (k : Int) m = selectBits a (setBitPositions m) ∧
        setOccupancy (toInt32 a) (k : Int) m = selectBits a (setBitPositions m) :=
    fun a ha =>
      ⟨(setOccupancy_eq_selectBits_32 m hm64 k hk hk32 a (lt_two_pow_32 hk32 ha)).1,
        (setOccupancy_eq_selectBits_32 m hm64 k hk hk32 a (lt_two_pow_32 hk32 ha)).2.1⟩
  have hlen : (setBitPositions m).length = k :=
    (setOccupancy_eq_selectBits_32 m hm64 k hk hk32 0 (by decide)).2.2
  have hsb : ∀ a b : Nat, a < 2 ^ k → b < 2 ^ k →
      selectBits a (setBitPositions m) = selectBits b (setBitPositions m) → a = b :=
    fun a b ha hb hab =>
      selectBits_inj (setBitPositions m) (pairwise_setBitPositions m) a b
        (by rw [hlen]; exact ha) (by rw [hlen]; exact hb) hab
  have hinj : ∀ a b : Nat, a < 2 ^ k → b < 2 ^ k →
      setOccupancy (a : Int) (k : Int) m = setOccupancy (b : Int) (k : Int) m → a = b := by
    intro a b ha hb hab
    rw [(hsel a ha).1, (hsel b hb).1] at hab
    exact hsb a b ha hb hab
  have hinj32 : ∀ a b : Nat, a < 2 ^ k → b < 2 ^ k →
      setOccupancy (toInt32 a) (k : Int) m = setOccupancy (toInt32 b) (k : Int) m → a = b := by
    intro a b ha hb hab
    rw [(hsel a ha).2, (hsel b hb).2] at hab
    exact hsb a b ha hb hab
  refine ⟨⟨fun h => hne (hinj i1 i2 h1 h2 h), fun h => hne (hinj32 i1 i2 h1 h2 h)⟩, ?_, ?_⟩
  · rw [Finset.card_image_of_injOn, Finset.card_range]
    intro a ha b hb hab
    exact hinj a b (Finset.mem_range.mp ha) (Finset.mem_range.mp hb) hab
  · rw [Finset.card_image_of_injOn, Finset.card_range]
    intro a ha b hb hab
    exact hinj32 a b (Finset.mem_range.mp ha) (Finset.mem_range.mp hb) hab

theorem setOccupancy_distinct_witness :
    (setOccupancy ((1 : Nat) : Int) ((32 : Nat) : Int) (2 ^ 32 - 1)
          ≠ setOccupancy ((2 ^ 31 : Nat) : Int) ((32 : Nat) : Int) (2 ^ 32 - 1) ∧
        setOccupancy (toInt32 1) ((32 : Nat) : Int) (2 ^ 32 - 1)
          ≠ setOccupancy (toInt32 (2 ^ 31)) ((32 : Nat) : Int) (2 ^ 32 - 1)) ∧
      ((Finset.range (2 ^ 32)).image
        (fun i : Nat => setOccupancy (i : Int) ((32 : Nat) : Int) (2 ^ 32 - 1))).card = 2 ^ 32 ∧
      ((Finset.range (2 ^ 32)).image
        (fun i : Nat => setOccupancy (toInt32 i) ((32 : Nat) : Int) (2 ^ 32 - 1))).card
          = 2 ^ 32 :=
  setOccupancy_distinct (2 ^ 32 - 1) (by decide) 32 (by decide) (by decide) 1 (2 ^ 31)
    (by decide) (by decide) (by decide)

